import Mathlib

/-!
Verification of the epub_chainsaw extraction / rebuild core against its
natural-language specification.

The development shallowly embeds the Python sources `extract_epub.py`,
`build_epub.py` and `build_translated_epub.py`.  Chapter documents are
modelled by the ordered element tree of the spec's data model (§3): tag,
attribute list, leading text, ordered children, tail text.  Parsing and
serialization of markup are delegated by the spec to an external markup
library collaborator (§6); where a claim needs them they are modelled at
the tree level, and serialization is modelled by an explicit function.
Machine-level details that cannot arise in the claims (comment/PI nodes
whose tag is not a string, exotic Unicode whitespace classes) are noted
at the definitions that abstract them.
-/

/-! ## Python string helpers -/

/-- Whitespace characters recognised by Python's `str.strip()` / `re` `\s`
for the ASCII range (the sources only ever meet ASCII whitespace). -/
def isPySpace (c : Char) : Bool :=
  c = ' ' || c = '\t' || c = '\n' || c = '\r' || c = '\x0b' || c = '\x0c'

/-- A character list is entirely whitespace (`not s.strip()` in Python). -/
def allWsL (cs : List Char) : Bool := cs.all isPySpace

/-- A string has some non-whitespace content (`s.strip()` truthy). -/
def nonWs (s : String) : Bool := !(allWsL s.toList)

/-- Python `s.strip()`: drop leading and trailing whitespace. -/
def pyStrip (s : String) : String :=
  String.mk (((s.toList.dropWhile isPySpace).reverse.dropWhile isPySpace).reverse)

/-- Python `s.replace("\r\n", "\n")` at the character-list level. -/
def replaceCRLF : List Char → List Char
  | [] => []
  | '\r' :: '\n' :: rest => '\n' :: replaceCRLF rest
  | c :: rest => c :: replaceCRLF rest

/-- Lowercase a string character-wise (kernel-reducible stand-in for
Python `str.lower()`). -/
def pyLower (s : String) : String := String.mk (s.toList.map Char.toLower)

/-- Model of `_local_name`: `etree.QName(elem).localname.lower()` — strip a
leading `{namespace}` wrapper from the tag, then lowercase. -/
def localName (tag : String) : String :=
  let cs := tag.toList
  let stripped :=
    match cs with
    | '{' :: rest => (rest.dropWhile (fun c => c ≠ '}')).drop 1
    | _ => cs
  String.mk (stripped.map Char.toLower)

/-- Python falsy-aware `a or b` for an optional string (`None` and `""` are
falsy). -/
def pyGetOr (o : Option String) (dflt : String) : String :=
  match o with
  | some s => if s = "" then dflt else s
  | none => dflt

/-! ## The document tree (spec §3)

An ordered, rooted tree of elements: tag name, attribute mapping (an
ordered association list, as in lxml), leading text, ordered child list,
tail text.  Nodes whose tag is not a string (comments, processing
instructions) are skipped everywhere by the sources
(`isinstance(node.tag, str)` guards) and are not modelled. -/

inductive Elem where
  | mk (tag : String) (attrs : List (String × String)) (text : String)
       (children : List Elem) (tail : String)

def Elem.tag : Elem → String
  | .mk t _ _ _ _ => t

def Elem.attrs : Elem → List (String × String)
  | .mk _ a _ _ _ => a

def Elem.text : Elem → String
  | .mk _ _ tx _ _ => tx

def Elem.children : Elem → List Elem
  | .mk _ _ _ cs _ => cs

def Elem.tail : Elem → String
  | .mk _ _ _ _ tl => tl

theorem Elem.sizeOf_children_lt (e : Elem) : sizeOf e.children < sizeOf e := by
  cases e with
  | mk t a tx cs tl => simp [Elem.children]; omega

/-! Document-order (preorder) listing of an element and its descendants,
the order produced by lxml's `elem.iter()`. -/

mutual
def preorder : Elem → List Elem
  | .mk t a tx cs tl => .mk t a tx cs tl :: preorderList cs
termination_by structural e => e
def preorderList : List Elem → List Elem
  | [] => []
  | c :: cs => preorder c ++ preorderList cs
termination_by structural l => l
end

/-- First attribute value for a key (lxml `elem.get(key)`; keys are unique
in an attribute mapping, lookup returns the first match). -/
def getAttr (e : Elem) (key : String) : Option String :=
  (e.attrs.find? (fun kv => kv.1 = key)).map (·.2)

/-! ## Markup classifier (`extract_epub.py`)

`SPECIAL_MEDIA_TAGS`, `TEXT_IGNORE_TAGS`, `_node_has_special_media`,
`_has_meaningful_text` and `_should_extract_special_block`. -/

def specialMediaTags : List String := ["svg", "img", "image", "object", "iframe"]

def textIgnoreTags : List String := ["desc", "title"]

def isSpecialTag (tag : String) : Bool := specialMediaTags.contains (localName tag)

def isIgnoredTag (tag : String) : Bool := textIgnoreTags.contains (localName tag)

/-! Model of `_node_has_special_media`: some node of the subtree (the
element itself included, as `elem.iter()` yields it first) carries a
media tag. -/

mutual
def node_has_special_media : Elem → Bool
  | .mk t _ _ cs _ => isSpecialTag t || mediaInList cs
termination_by structural e => e
def mediaInList : List Elem → Bool
  | [] => false
  | c :: cs => node_has_special_media c || mediaInList cs
termination_by structural l => l
end

/-! Descendant scan of `_has_meaningful_text`: every proper descendant is
checked for leading text (unless its own tag is ignored) and for tail
text (always). -/

mutual
def descMeaningful : List Elem → Bool
  | [] => false
  | c :: cs => descMeaningfulElem c || descMeaningful cs
termination_by structural l => l
def descMeaningfulElem : Elem → Bool
  | .mk t _ tx cs tl =>
      (nonWs tx && !isIgnoredTag t) || nonWs tl || descMeaningful cs
termination_by structural e => e
end

/-- Model of `_has_meaningful_text`: the element's own leading text counts
unless its tag is ignored; then every proper descendant's text (with the
same per-node exemption) and tail.  The element's own tail is not
examined. -/
def has_meaningful_text (e : Elem) : Bool :=
  (nonWs e.text && !isIgnoredTag e.tag) || descMeaningful e.children

/-- Model of `_should_extract_special_block`.  The Python walks the
`getparent()` chain; here the ancestor chain (nearest first) is passed
explicitly.  All modelled nodes have string tags, so the
`isinstance(parent.tag, str)` guard never stops the walk early. -/
def should_extract_special_block (e : Elem) (ancestors : List Elem) : Bool :=
  if !node_has_special_media e then false
  else if has_meaningful_text e then false
  else ancestors.all (fun a => !(node_has_special_media a && !has_meaningful_text a))

/-! Claim-side formulations for C4, written from the claim's own words,
independently of the code's recursions. -/

/-- Claim side: the subtree contains at least one media-carrying element
(img, image, svg, object, iframe), stated over the document-order node
list. -/
def specHasMediaB (e : Elem) : Bool :=
  (preorder e).any (fun n => isSpecialTag n.tag)

/-! Claim side, literal reading: non-whitespace text located outside
caption/description/title elements, where everything enclosed in a
`desc`/`title` element — nested element text and tails included — is
exempt.  `insideIgn` records whether an enclosing element of the current
node (within the examined subtree) is ignored. -/

mutual
def claimMeaningful (insideIgn : Bool) : Elem → Bool
  | .mk t _ tx cs _ =>
      let here := insideIgn || isIgnoredTag t
      (!here && nonWs tx) || claimMeaningfulList here cs
termination_by structural e => e
def claimMeaningfulList (insideIgn : Bool) : List Elem → Bool
  | [] => false
  | c :: cs =>
      (claimMeaningful insideIgn c || (!insideIgn && nonWs c.tail))
        || claimMeaningfulList insideIgn cs
termination_by structural l => l
end

/-- Claim side, C4 as stated: media present, no meaningful text (literal
"outside desc/title" reading), and no ancestor satisfying both. -/
def claimMarkedB (e : Elem) (ancestors : List Elem) : Bool :=
  specHasMediaB e && !claimMeaningful false e
    && ancestors.all (fun a => !(specHasMediaB a && !claimMeaningful false a))

/-- Amended meaningful-text reading, matching the code's per-node
exemption: only the direct leading text of a `desc`/`title` element is
exempt; text of other elements nested inside an ignored element, and all
tail text, still counts. -/
def amendedMeaningfulB (e : Elem) : Bool :=
  (nonWs e.text && !isIgnoredTag e.tag)
    || (preorderList e.children).any
        (fun n => (nonWs n.text && !isIgnoredTag n.tag) || nonWs n.tail)

/-! ## Strong induction for the nested tree type -/

theorem Elem.inductionOn {motive : Elem → Prop} (e : Elem)
    (h : ∀ t a tx cs tl, (∀ c, c ∈ cs → motive c) → motive (Elem.mk t a tx cs tl)) :
    motive e :=
  match e with
  | .mk t a tx cs tl => h t a tx cs tl (fun c hc => Elem.inductionOn c h)
termination_by sizeOf e
decreasing_by
  have h1 := List.sizeOf_lt_of_mem hc
  simp
  omega

/-! ## C4 lemmas: the code's recursive scans agree with the
document-order list formulations. -/

theorem mediaInList_eq_any (cs : List Elem)
    (ih : ∀ c ∈ cs, node_has_special_media c = specHasMediaB c) :
    mediaInList cs = (preorderList cs).any (fun n => isSpecialTag n.tag) := by
  induction cs with
  | nil => simp [mediaInList, preorderList]
  | cons c cs ihl =>
    rw [mediaInList, preorderList, List.any_append]
    rw [ih c (by simp), ihl (fun c hc => ih c (by simp [hc]))]
    simp [specHasMediaB]

theorem media_eq (e : Elem) : node_has_special_media e = specHasMediaB e := by
  induction e using Elem.inductionOn with
  | h t a tx cs tl ih =>
    rw [node_has_special_media, specHasMediaB, preorder, List.any_cons]
    rw [mediaInList_eq_any cs ih]
    simp [Elem.tag]

theorem descMeaningful_eq : ∀ cs : List Elem,
    descMeaningful cs = (preorderList cs).any
      (fun n => (nonWs n.text && !isIgnoredTag n.tag) || nonWs n.tail)
  | [] => by simp [descMeaningful, preorderList]
  | c :: cs => by
    rw [descMeaningful, preorderList, List.any_append]
    cases c with
    | mk t a tx ccs tl =>
      rw [descMeaningfulElem, descMeaningful_eq ccs, descMeaningful_eq cs]
      rw [preorder, List.any_cons]
      simp [Elem.text, Elem.tag, Elem.tail, Bool.or_assoc]
termination_by cs => sizeOf cs
decreasing_by
  all_goals simp
  all_goals omega

theorem meaningful_eq (e : Elem) : has_meaningful_text e = amendedMeaningfulB e := by
  rw [has_meaningful_text, amendedMeaningfulB, descMeaningful_eq e.children]

/-! ## C4: classifier characterization -/

def imgE : Elem := .mk "img" [] "" [] ""

/-- A figure holding an image and a `desc` caption whose text sits inside a
nested `span`.  The claim's literal reading ("no non-whitespace text
outside caption/description/title-only elements") exempts the span's
text; the code counts it as meaningful because the span itself is not an
ignored tag. -/
def exC4 : Elem := .mk "figure" [] ""
  [imgE, .mk "desc" [] "" [.mk "span" [] "x" [] ""] ""] ""

/-- C4 counterexample: an element whose subtree contains a media element
and whose only non-whitespace text lies inside a `desc` element (held by
a nested `span`).  The claim as stated marks it for extraction; the
classifier does not. -/
theorem c4_counterexample :
    should_extract_special_block exC4 [] = false ∧ claimMarkedB exC4 [] = true := by
  constructor <;> decide

/-- C4 amended: the classifier marks E for extraction iff E's subtree
contains a media-carrying element (img, image, svg, object, iframe), E's
subtree has no meaningful text — where only the direct leading text of a
`desc`/`title` element is exempt: text of non-exempt elements nested
inside a `desc`/`title`, and all inter-element tail text, still counts —
and no ancestor of E satisfies both of those conditions. -/
theorem c4_amended (e : Elem) (ancestors : List Elem) :
    should_extract_special_block e ancestors
      = (specHasMediaB e && !amendedMeaningfulB e
          && ancestors.all (fun a => !(specHasMediaB a && !amendedMeaningfulB a))) := by
  rw [should_extract_special_block]
  simp only [← media_eq, ← meaningful_eq]
  cases hm : node_has_special_media e <;> cases ht : has_meaningful_text e <;> simp

/-! ## `_sanitize_special_block` (`extract_epub.py`) and the markup
serializer

Serialization is the markup-library collaborator's
`lhtml.tostring(elem, encoding="unicode", method="html")` (spec §6):
start tag with the attributes in mapping order, leading text, children,
end tag (suppressed for HTML void elements, which also render no
content), then the element's tail text, with `& < >` escaped in text and
additionally `"` in attribute values. -/

def voidTags : List String :=
  ["area", "base", "br", "col", "embed", "hr", "img", "input", "link",
   "meta", "param", "source", "track", "wbr"]

def escText (s : String) : String :=
  String.mk (s.toList.flatMap (fun c =>
    if c = '&' then "&amp;".toList
    else if c = '<' then "&lt;".toList
    else if c = '>' then "&gt;".toList
    else [c]))

def escAttrVal (s : String) : String :=
  String.mk (s.toList.flatMap (fun c =>
    if c = '&' then "&amp;".toList
    else if c = '<' then "&lt;".toList
    else if c = '>' then "&gt;".toList
    else if c = '"' then "&quot;".toList
    else [c]))

def serializeAttrs (a : List (String × String)) : String :=
  String.join (a.map (fun kv => " " ++ kv.1 ++ "=\"" ++ escAttrVal kv.2 ++ "\""))

mutual
def serializeElem : Elem → String
  | .mk t a tx cs tl =>
      if voidTags.contains (pyLower t) then
        "<" ++ t ++ serializeAttrs a ++ ">" ++ escText tl
      else
        "<" ++ t ++ serializeAttrs a ++ ">" ++ escText tx ++ serializeList cs
          ++ "</" ++ t ++ ">" ++ escText tl
termination_by structural e => e
def serializeList : List Elem → String
  | [] => ""
  | c :: cs => serializeElem c ++ serializeList cs
termination_by structural l => l
end

/-- The attribute-name case fix of `_sanitize_special_block`: on an `svg`
element, a key whose lowercase form is `viewbox` or `preserveaspectratio`
is renamed to its camel-case form. -/
def camelFix (k : String) : String :=
  if pyLower k = "viewbox" then "viewBox"
  else if pyLower k = "preserveaspectratio" then "preserveAspectRatio"
  else k

/-- lxml `del node.attrib[key]`. -/
def delAttrList (a : List (String × String)) (k : String) : List (String × String) :=
  a.filter (fun kv => kv.1 ≠ k)

/-- lxml `node.attrib[key] = value`: update in place when the key exists,
append otherwise. -/
def setAttrList (a : List (String × String)) (k v : String) : List (String × String) :=
  if a.any (fun kv => kv.1 = k) then
    a.map (fun kv => if kv.1 = k then (k, v) else kv)
  else a ++ [(k, v)]

/-- The `for key, value in attrs` loop of `_sanitize_special_block`: the
snapshot `todo` is walked in order while the live mapping `cur` is
mutated (delete old key, set new key). -/
def rewriteSvgAttrs (todo cur : List (String × String)) : List (String × String) :=
  match todo with
  | [] => cur
  | (k, v) :: rest =>
      let nk := camelFix k
      if nk ≠ k then rewriteSvgAttrs rest (setAttrList (delAttrList cur k) nk v)
      else rewriteSvgAttrs rest cur

/-! The whole-subtree pass of `_sanitize_special_block` (`cloned.iter()`):
each node's attributes are rewritten, `svg` nodes only. -/

mutual
def caseFixElem : Elem → Elem
  | .mk t a tx cs tl =>
      let a' := if localName t = "svg" then rewriteSvgAttrs a a else a
      .mk t a' tx (caseFixList cs) tl
termination_by structural e => e
def caseFixList : List Elem → List Elem
  | [] => []
  | c :: cs => caseFixElem c :: caseFixList cs
termination_by structural l => l
end

/-- Model of `_sanitize_special_block`: deep-copy (implicit in the
functional model), rewrite the attribute cases, serialize. -/
def sanitize_special_block (e : Elem) : String := serializeElem (caseFixElem e)

/-- Claim side (C2): no `svg` node of the subtree carries an attribute the
case fix would rename. -/
def noRenamableSvgAttrB (e : Elem) : Bool :=
  (preorder e).all (fun n =>
    localName n.tag ≠ "svg" || n.attrs.all (fun kv => camelFix kv.1 = kv.1))

/-- Spec-side description of the attribute rewrite: untouched attributes
keep their order, renamed ones are moved (in order) to the end under
their camel-case names. -/
def specRenamedAttrs (a : List (String × String)) : List (String × String) :=
  a.filter (fun kv => camelFix kv.1 = kv.1)
    ++ (a.filter (fun kv => camelFix kv.1 ≠ kv.1)).map (fun kv => (camelFix kv.1, kv.2))

mutual
def specCaseFixElem : Elem → Elem
  | .mk t a tx cs tl =>
      let a' := if localName t = "svg" then specRenamedAttrs a else a
      .mk t a' tx (specCaseFixList cs) tl
termination_by structural e => e
def specCaseFixList : List Elem → List Elem
  | [] => []
  | c :: cs => specCaseFixElem c :: specCaseFixList cs
termination_by structural l => l
end

/-! ## C2 lemmas -/

theorem pyLower_camelFix (k : String) : pyLower (camelFix k) = pyLower k := by
  rw [camelFix]
  split
  · rename_i h; rw [h]; decide
  · split
    · rename_i h; rw [h]; decide
    · rfl

theorem rewriteSvgAttrs_id (todo cur : List (String × String))
    (h : ∀ kv ∈ todo, camelFix kv.1 = kv.1) :
    rewriteSvgAttrs todo cur = cur := by
  induction todo with
  | nil => rfl
  | cons kv rest ih =>
    rw [rewriteSvgAttrs]
    have hk : camelFix kv.1 = kv.1 := h kv (by simp)
    simp only [hk]
    simp
    exact ih (fun x hx => h x (by simp [hx]))

theorem rewriteSvgAttrs_spec : ∀ todo cur : List (String × String),
    (∀ kv ∈ todo, camelFix kv.1 ≠ kv.1 → ∀ kv' ∈ cur, kv'.1 ≠ camelFix kv.1) →
    todo.Pairwise (fun x y => pyLower x.1 ≠ pyLower y.1) →
    rewriteSvgAttrs todo cur
      = cur.filter (fun kv =>
            !((todo.filter (fun x => camelFix x.1 ≠ x.1)).map (·.1)).contains kv.1)
        ++ (todo.filter (fun x => camelFix x.1 ≠ x.1)).map
            (fun kv => (camelFix kv.1, kv.2))
  | [], cur => by
    intro _ _
    simp [rewriteSvgAttrs]
  | (k, v) :: rest, cur => by
    intro h1 h2
    rw [rewriteSvgAttrs]
    by_cases hk : camelFix k = k
    · simp only [hk, ne_eq, not_true_eq_false, if_neg, ite_false]
      rw [rewriteSvgAttrs_spec rest cur
          (fun kv hkv hr kv' hkv' => h1 kv (by simp [hkv]) hr kv' hkv')
          (List.Pairwise.sublist (List.sublist_cons_self _ _) h2)]
      congr 1
      · apply List.filter_congr
        intro x _
        simp [hk]
      · simp [hk]
    · simp only [ne_eq, hk, not_false_eq_true, if_pos, ite_true]
      have hset : setAttrList (delAttrList cur k) (camelFix k) v
          = cur.filter (fun kv => kv.1 ≠ k) ++ [(camelFix k, v)] := by
        rw [setAttrList]
        have hany : (delAttrList cur k).any (fun kv => kv.1 = camelFix k) = false := by
          rw [List.any_eq_false]
          intro kv' hkv'
          have hmem : kv' ∈ cur := List.mem_of_mem_filter hkv'
          have := h1 (k, v) (by simp) hk kv' hmem
          simpa using this
        rw [hany]
        simp [delAttrList]
      rw [hset]
      have hhead : ∀ y ∈ rest, pyLower k ≠ pyLower y.1 := by
        intro y hy
        exact (List.pairwise_cons.mp h2).1 y hy
      have htail : rest.Pairwise (fun x y => pyLower x.1 ≠ pyLower y.1) :=
        (List.pairwise_cons.mp h2).2
      have h1' : ∀ kv ∈ rest, camelFix kv.1 ≠ kv.1 →
          ∀ kv' ∈ cur.filter (fun kv => kv.1 ≠ k) ++ [(camelFix k, v)],
            kv'.1 ≠ camelFix kv.1 := by
        intro kv hkv hr kv' hkv'
        rcases List.mem_append.mp hkv' with hin | hin
        · exact h1 kv (by simp [hkv]) hr kv' (List.mem_of_mem_filter hin)
        · have : kv' = (camelFix k, v) := by simpa using hin
          subst this
          intro heq
          have h' := congrArg pyLower heq
          rw [pyLower_camelFix, pyLower_camelFix] at h'
          exact hhead kv hkv h' 
      rw [rewriteSvgAttrs_spec rest _ h1' htail]
      rw [List.filter_append]
      have hnotin : ((rest.filter (fun x => camelFix x.1 ≠ x.1)).map (·.1)).contains
          (camelFix k) = false := by
        rw [List.contains_eq_any_beq, List.any_eq_false]
        intro key hkey
        rcases List.mem_map.mp hkey with ⟨x, hx, hxk⟩
        have hxr : x ∈ rest := List.mem_of_mem_filter hx
        intro hbeq
        have hkeq : camelFix k = key := eq_of_beq hbeq
        have hx1 : x.1 = camelFix k := by rw [hxk, hkeq]
        have : pyLower k = pyLower x.1 := by
          rw [hx1, pyLower_camelFix]
        exact hhead x hxr this
      have hsingle : ([(camelFix k, v)].filter (fun kv =>
          !((rest.filter (fun x => camelFix x.1 ≠ x.1)).map (·.1)).contains kv.1))
          = [(camelFix k, v)] := by
        rw [List.filter_cons]
        rw [show (!((rest.filter (fun x => camelFix x.1 ≠ x.1)).map (·.1)).contains
              ((camelFix k, v)).1) = true from by rw [hnotin]; rfl]
        simp
      rw [hsingle]
      rw [List.filter_filter]
      have hrn : (((k, v) :: rest).filter (fun x => camelFix x.1 ≠ x.1))
          = (k, v) :: rest.filter (fun x => camelFix x.1 ≠ x.1) := by
        rw [List.filter_cons]
        simp [hk]
      rw [hrn]
      have hfeq : cur.filter (fun a =>
            (!((rest.filter (fun x => camelFix x.1 ≠ x.1)).map (·.1)).contains a.1)
              && decide (a.1 ≠ k))
          = cur.filter (fun kv =>
            !((((k, v) :: rest.filter (fun x => camelFix x.1 ≠ x.1))).map (·.1)).contains kv.1) := by
        apply List.filter_congr
        intro x _
        simp only [List.map_cons, List.contains_cons]
        cases hxk : (decide (x.1 = k) : Bool) with
        | true =>
          have : x.1 = k := of_decide_eq_true hxk
          simp [this]
        | false =>
          have hne : ¬ x.1 = k := of_decide_eq_false hxk
          have hne2 : ¬ (x.1 == k) = true := by
            intro hb
            exact hne (of_decide_eq_true hb)
          simp [hne, hne2, Bool.and_comm]
      rw [hfeq]
      simp [List.append_assoc]

theorem rewriteSvgAttrs_same (a : List (String × String))
    (h : (a.map (fun kv => pyLower kv.1)).Nodup) :
    rewriteSvgAttrs a a = specRenamedAttrs a := by
  have hpair : a.Pairwise (fun x y => pyLower x.1 ≠ pyLower y.1) := by
    have := List.pairwise_map.mp h
    exact this
  have hinj : ∀ x ∈ a, ∀ y ∈ a, pyLower x.1 = pyLower y.1 → x = y :=
    List.inj_on_of_nodup_map h
  have h1 : ∀ kv ∈ a, camelFix kv.1 ≠ kv.1 → ∀ kv' ∈ a, kv'.1 ≠ camelFix kv.1 := by
    intro kv hkv hr kv' hkv' heq
    have hl : pyLower kv'.1 = pyLower kv.1 := by rw [heq, pyLower_camelFix]
    have := hinj kv' hkv' kv hkv hl
    rw [this] at heq
    exact hr heq.symm
  rw [rewriteSvgAttrs_spec a a h1 hpair, specRenamedAttrs]
  congr 1
  apply List.filter_congr
  intro x hx
  by_cases hc : camelFix x.1 = x.1
  · have hf : ((a.filter (fun y => camelFix y.1 ≠ y.1)).map (·.1)).contains x.1 = false := by
      rw [List.contains_eq_any_beq, List.any_eq_false]
      intro key hkey hbeq
      rcases List.mem_map.mp hkey with ⟨y, hy, hyk⟩
      have hyr : y ∈ a := List.mem_of_mem_filter hy
      have hyrn : camelFix y.1 ≠ y.1 := by simpa using (List.mem_filter.mp hy).2
      have hxy1 : x.1 = y.1 := (eq_of_beq hbeq).trans hyk.symm
      have hxy : x = y := hinj x hx y hyr (by rw [hxy1])
      rw [hxy] at hc
      exact hyrn hc
    simp [hf, hc]
  · have hf : ((a.filter (fun y => camelFix y.1 ≠ y.1)).map (·.1)).contains x.1 = true := by
      rw [List.contains_eq_any_beq, List.any_eq_true]
      refine ⟨x.1, List.mem_map.mpr ⟨x, List.mem_filter.mpr ⟨hx, by simpa using hc⟩, rfl⟩, ?_⟩
      simp
    simp [hf, hc]
    exact ⟨x.2, hx⟩

theorem mem_preorderList_of_mem {n c : Elem} {cs : List Elem} (hc : c ∈ cs)
    (hn : n ∈ preorder c) : n ∈ preorderList cs := by
  induction cs with
  | nil => cases hc
  | cons d ds ih =>
    rw [preorderList, List.mem_append]
    rcases List.mem_cons.mp hc with h | h
    · left
      rw [← h]
      exact hn
    · right
      exact ih h

mutual
theorem caseFixElem_id : ∀ e : Elem, noRenamableSvgAttrB e = true → caseFixElem e = e
  | .mk t a tx cs tl => fun h => by
    have hall := List.all_eq_true.mp h
    have hnode := hall (Elem.mk t a tx cs tl) (by rw [preorder]; exact List.mem_cons_self _ _)
    have hkids : ∀ c ∈ cs, noRenamableSvgAttrB c = true := by
      intro c hc
      apply List.all_eq_true.mpr
      intro n hn
      exact hall n (by rw [preorder]; exact List.mem_cons_of_mem _ (mem_preorderList_of_mem hc hn))
    have hcs : caseFixList cs = cs := caseFixList_id cs hkids
    rw [caseFixElem]
    by_cases hsvg : localName t = "svg"
    · have hattrs : ∀ kv ∈ a, camelFix kv.1 = kv.1 := by
        simp only [Elem.tag, Elem.attrs, hsvg] at hnode
        simp at hnode
        intro kv hkv
        exact hnode kv.1 kv.2 hkv
      rw [if_pos hsvg, rewriteSvgAttrs_id a a hattrs, hcs]
    · rw [if_neg hsvg, hcs]
termination_by structural e => e
theorem caseFixList_id : ∀ cs : List Elem, (∀ c ∈ cs, noRenamableSvgAttrB c = true) →
    caseFixList cs = cs
  | [] => fun _ => rfl
  | c :: cs => fun h => by
    rw [caseFixList]
    rw [caseFixElem_id c (h c (by simp)), caseFixList_id cs (fun d hd => h d (by simp [hd]))]
termination_by structural l => l
end

/-- Well-formedness of `svg` attribute mappings for the spec-level rewrite
description: keys are distinct even after lowercasing (an HTML-parsed
attribute mapping has unique, already-lowercased keys). -/
def svgAttrsLowerNodup (e : Elem) : Prop :=
  ∀ n ∈ preorder e, localName n.tag = "svg" →
    (n.attrs.map (fun kv => pyLower kv.1)).Nodup

instance (e : Elem) : Decidable (svgAttrsLowerNodup e) := by
  unfold svgAttrsLowerNodup
  infer_instance

mutual
theorem caseFixElem_spec : ∀ e : Elem, svgAttrsLowerNodup e → caseFixElem e = specCaseFixElem e
  | .mk t a tx cs tl => fun h => by
    have hnode := h (Elem.mk t a tx cs tl) (by rw [preorder]; exact List.mem_cons_self _ _)
    have hkids : ∀ c ∈ cs, svgAttrsLowerNodup c := by
      intro c hc n hn hsvg
      exact h n (by rw [preorder]; exact List.mem_cons_of_mem _ (mem_preorderList_of_mem hc hn)) hsvg
    have hcs : caseFixList cs = specCaseFixList cs := caseFixList_spec cs hkids
    rw [caseFixElem, specCaseFixElem]
    by_cases hsvg : localName t = "svg"
    · have hnd : (a.map (fun kv => pyLower kv.1)).Nodup := by
        have := hnode (by simpa [Elem.tag] using hsvg)
        simpa [Elem.attrs] using this
      rw [if_pos hsvg, if_pos hsvg, rewriteSvgAttrs_same a hnd, hcs]
    · rw [if_neg hsvg, if_neg hsvg, hcs]
termination_by structural e => e
theorem caseFixList_spec : ∀ cs : List Elem, (∀ c ∈ cs, svgAttrsLowerNodup c) →
    caseFixList cs = specCaseFixList cs
  | [] => fun _ => rfl
  | c :: cs => fun h => by
    rw [caseFixList, specCaseFixList]
    rw [caseFixElem_spec c (h c (by simp)), caseFixList_spec cs (fun d hd => h d (by simp [hd]))]
termination_by structural l => l
end

/-! ## C2: sanitize-at-extraction-time claim -/

/-- An `svg` special block whose `viewBox` attribute was captured by the
case-insensitive HTML parse as `viewbox`. -/
def exC2 : Elem := .mk "svg" [("viewbox", "0 0 10 10")] "" [] ""

/-- An element whose `svg` child carries no case-normalizable attribute. -/
def exW2 : Elem := .mk "figure" [] "" [.mk "svg" [("width", "5")] "" [] ""] ""

/-- C2 counterexample: `_sanitize_special_block` does not store the
faithful serialization of the original subtree — already at extraction
time it rewrites the attribute name `viewbox` to `viewBox` on an `svg`
element, so the stored markup differs from the faithful serialization. -/
theorem c2_counterexample :
    sanitize_special_block exC2 ≠ serializeElem exC2
      ∧ sanitize_special_block exC2 = "<svg viewBox=\"0 0 10 10\"></svg>"
      ∧ serializeElem exC2 = "<svg viewbox=\"0 0 10 10\"></svg>" :=
  ⟨by decide, by decide, by decide⟩

/-- C2 amended: the markup stored for a special block equals the faithful
serialization of the original subtree except for attribute-name case
normalization applied at extraction time to `svg` elements: a key whose
lowercase form is `viewbox`/`preserveaspectratio` is renamed to its
camel-case form and moved to the end of the attribute mapping.  When no
`svg` node of the subtree carries such an attribute the stored markup is
exactly the faithful serialization. -/
theorem c2_amended :
    (∀ e : Elem, noRenamableSvgAttrB e = true →
      sanitize_special_block e = serializeElem e)
    ∧ (∀ e : Elem, svgAttrsLowerNodup e →
      sanitize_special_block e = serializeElem (specCaseFixElem e)) := by
  constructor
  · intro e h
    rw [sanitize_special_block, caseFixElem_id e h]
  · intro e h
    rw [sanitize_special_block, caseFixElem_spec e h]

/-- C2 amended, witness at concrete inputs. -/
theorem c2_amended_witness :
    (noRenamableSvgAttrB exW2 = true ∧ sanitize_special_block exW2 = serializeElem exW2)
    ∧ (svgAttrsLowerNodup exC2
        ∧ sanitize_special_block exC2 = serializeElem (specCaseFixElem exC2)) :=
  ⟨⟨by decide, c2_amended.1 exW2 (by decide)⟩,
   ⟨by decide, c2_amended.2 exC2 (by decide)⟩⟩

/-! ## Markup normalizer (`build_epub.py`)

`_svg_image_to_img` and `normalize_placeholder_html`.  The string-level
function parses the snippet with the markup-library collaborator,
rewrites the tree, and serializes; the rewrite is modelled here on the
parsed fragment (a list of sibling elements).  The snapshot iteration
with in-place replacement of the Python is equivalent to a single
recursive pass: an element is examined on its original subtree (its
descendants are visited later in document order), and descendants of a
replaced element are only ever revisited in their detached subtree,
where nothing further changes the output. -/

def xlinkHref : String := "{http://www.w3.org/1999/xlink}href"

def attrLookup (a : List (String × String)) (k : String) : Option String :=
  (a.find? (fun kv => kv.1 = k)).map (·.2)

/-- The falsy-aware `get(XLINK_HREF) or get("href") or get("xlink:href")`
chain of `_svg_image_to_img`; returns `""` when no reference resolves. -/
def hrefOfAttrs (a : List (String × String)) : String :=
  pyGetOr (attrLookup a xlinkHref)
    (pyGetOr (attrLookup a "href") (pyGetOr (attrLookup a "xlink:href") ""))

/-! First `image` node of the subtree in document order
(`for child in svg_elem.iter(): ... if _local_name(child) == "image"`). -/

mutual
def findImage : Elem → Option Elem
  | .mk t a tx cs tl =>
      if localName t = "image" then some (.mk t a tx cs tl)
      else findImageList cs
termination_by structural e => e
def findImageList : List Elem → Option Elem
  | [] => none
  | c :: cs =>
      match findImage c with
      | some im => some im
      | none => findImageList cs
termination_by structural l => l
end

/-! First `desc` node with non-whitespace text, stripped (the
`desc_text` loop of `_svg_image_to_img`; a trailing all-whitespace
`desc` leaves `desc_text` falsy, same as no `desc` at all). -/

mutual
def findDescNonWs : Elem → Option String
  | .mk t _ tx cs _ =>
      if localName t = "desc" && pyStrip tx ≠ "" then some (pyStrip tx)
      else findDescNonWsList cs
termination_by structural e => e
def findDescNonWsList : List Elem → Option String
  | [] => none
  | c :: cs =>
      match findDescNonWs c with
      | some s => some s
      | none => findDescNonWsList cs
termination_by structural l => l
end

/-- Model of `_svg_image_to_img`: locate the first `image` descendant,
resolve its reference, and build a plain `img` element with `src`,
non-empty `width`/`height`, and the first non-whitespace `desc` text as
`alt`. -/
def svg_image_to_img (e : Elem) : Option Elem :=
  match findImage e with
  | none => none
  | some im =>
      let href := hrefOfAttrs im.attrs
      if href = "" then none
      else
        let a1 := [("src", href)]
        let a2 := a1 ++ (match attrLookup im.attrs "width" with
          | some w => if w = "" then [] else [("width", w)]
          | none => [])
        let a3 := a2 ++ (match attrLookup im.attrs "height" with
          | some hv => if hv = "" then [] else [("height", hv)]
          | none => [])
        let dt := match findDescNonWs e with
          | some s => s
          | none => ""
        let a4 := a3 ++ (if dt = "" then [] else [("alt", dt)])
        some (.mk "img" a4 "" [] "")

/-! The rewrite pass of `normalize_placeholder_html` with its `changed`
flag: every `svg` element whose `_svg_image_to_img` resolves is replaced;
other elements keep their shape with their children processed. -/

mutual
def normElem : Elem → Bool × Elem
  | .mk t a tx cs tl =>
      if localName t = "svg" then
        match svg_image_to_img (.mk t a tx cs tl) with
        | some im => (true, im)
        | none =>
            let r := normList cs
            (r.1, .mk t a tx r.2 tl)
      else
        let r := normList cs
        (r.1, .mk t a tx r.2 tl)
termination_by structural e => e
def normList : List Elem → Bool × List Elem
  | [] => (false, [])
  | c :: cs =>
      let rc := normElem c
      let rcs := normList cs
      (rc.1 || rcs.1, rc.2 :: rcs.2)
termination_by structural l => l
end

/-- Model of `normalize_placeholder_html` on the parsed fragment: run the
rewrite pass; when nothing changed, return the original input (the
Python returns the original snippet string unchanged). -/
def normalize_placeholder_html (ns : List Elem) : List Elem :=
  let r := normList ns
  if r.1 then r.2 else ns

/-! ## C6 lemmas: the first-image scan is preserved by the rewrite pass
on subtrees where no replacement can resolve. -/

mutual
theorem findImage_norm_pres : ∀ e : Elem,
    (findImage e = none → findImage (normElem e).2 = none)
    ∧ (∀ im, findImage e = some im → hrefOfAttrs im.attrs = "" →
        ∃ im', findImage (normElem e).2 = some im' ∧ im'.attrs = im.attrs)
  | .mk t a tx cs tl => by
    by_cases him : localName t = "image"
    · have hsvg : ¬ localName t = "svg" := by rw [him]; decide
      constructor
      · intro h
        rw [findImage, if_pos him] at h
        cases h
      · intro im hsome hhref
        rw [findImage, if_pos him] at hsome
        have him2 : im = Elem.mk t a tx cs tl := (Option.some.inj hsome).symm
        rw [normElem, if_neg hsvg]
        refine ⟨Elem.mk t a tx (normList cs).2 tl, ?_, ?_⟩
        · rw [findImage, if_pos him]
        · rw [him2]
          rfl
    · by_cases hsvg : localName t = "svg"
      · cases hitm : svg_image_to_img (.mk t a tx cs tl) with
        | some i =>
          constructor
          · intro h
            rw [svg_image_to_img] at hitm
            rw [findImage, if_neg him] at h
            rw [findImage, if_neg him, h] at hitm
            cases hitm
          · intro im hsome hhref
            rw [svg_image_to_img, hsome] at hitm
            simp [hhref] at hitm
        | none =>
          have hne : normElem (.mk t a tx cs tl)
              = ((normList cs).1, Elem.mk t a tx (normList cs).2 tl) := by
            rw [normElem, if_pos hsvg, hitm]
          constructor
          · intro h
            rw [findImage, if_neg him] at h
            rw [hne, findImage, if_neg him]
            exact (findImageList_norm_pres cs).1 h
          · intro im hsome hhref
            rw [findImage, if_neg him] at hsome
            rw [hne, findImage, if_neg him]
            exact (findImageList_norm_pres cs).2 im hsome hhref
      · have hne : normElem (.mk t a tx cs tl)
            = ((normList cs).1, Elem.mk t a tx (normList cs).2 tl) := by
          rw [normElem, if_neg hsvg]
        constructor
        · intro h
          rw [findImage, if_neg him] at h
          rw [hne, findImage, if_neg him]
          exact (findImageList_norm_pres cs).1 h
        · intro im hsome hhref
          rw [findImage, if_neg him] at hsome
          rw [hne, findImage, if_neg him]
          exact (findImageList_norm_pres cs).2 im hsome hhref
termination_by structural e => e
theorem findImageList_norm_pres : ∀ cs : List Elem,
    (findImageList cs = none → findImageList (normList cs).2 = none)
    ∧ (∀ im, findImageList cs = some im → hrefOfAttrs im.attrs = "" →
        ∃ im', findImageList (normList cs).2 = some im' ∧ im'.attrs = im.attrs)
  | [] => by
    constructor
    · intro _
      rfl
    · intro im hsome _
      cases hsome
  | c :: cs => by
    have hl : (normList (c :: cs)).2 = (normElem c).2 :: (normList cs).2 := by
      rw [normList]
    rw [hl]
    constructor
    · intro h
      rw [findImageList] at h
      cases hfc : findImage c with
      | some imc => rw [hfc] at h; cases h
      | none =>
        rw [hfc] at h
        have h1 := (findImage_norm_pres c).1 hfc
        rw [findImageList, h1]
        exact (findImageList_norm_pres cs).1 h
    · intro im hsome hhref
      rw [findImageList] at hsome
      cases hfc : findImage c with
      | some imc =>
        rw [hfc] at hsome
        have him : imc = im := Option.some.inj hsome
        obtain ⟨im', h1, h2⟩ := (findImage_norm_pres c).2 im (him ▸ hfc) hhref
        refine ⟨im', ?_, h2⟩
        rw [findImageList, h1]
      | none =>
        rw [hfc] at hsome
        have h1 := (findImage_norm_pres c).1 hfc
        obtain ⟨im', h2, h3⟩ := (findImageList_norm_pres cs).2 im hsome hhref
        refine ⟨im', ?_, h3⟩
        rw [findImageList, h1, h2]
termination_by structural l => l
end

theorem svgITI_shape (e i : Elem) (h : svg_image_to_img e = some i) :
    ∃ a4, i = .mk "img" a4 "" [] "" := by
  rw [svg_image_to_img] at h
  cases hf : findImage e with
  | none =>
    rw [hf] at h
    cases h
  | some im =>
    rw [hf] at h
    by_cases hh : hrefOfAttrs im.attrs = ""
    · simp [hh] at h
    · simp only [hh, if_neg, ite_false] at h
      exact ⟨_, (Option.some.inj h).symm⟩

mutual
theorem normElem_flagFix : ∀ e : Elem, (normElem (normElem e).2).1 = false
  | .mk t a tx cs tl => by
    by_cases hsvg : localName t = "svg"
    · cases hitm : svg_image_to_img (.mk t a tx cs tl) with
      | some i =>
        have hne : normElem (.mk t a tx cs tl) = (true, i) := by
          rw [normElem, if_pos hsvg, hitm]
        rw [hne]
        obtain ⟨a4, hi⟩ := svgITI_shape _ i hitm
        rw [hi]
        have himg : ¬ localName "img" = "svg" := by decide
        rw [normElem, if_neg himg]
        rfl
      | none =>
        have hne : normElem (.mk t a tx cs tl)
            = ((normList cs).1, .mk t a tx (normList cs).2 tl) := by
          rw [normElem, if_pos hsvg, hitm]
        rw [hne]
        have hkeep : svg_image_to_img (.mk t a tx (normList cs).2 tl) = none := by
          rw [svg_image_to_img] at hitm ⊢
          cases hf : findImage (.mk t a tx cs tl) with
          | none =>
            have h1 := (findImage_norm_pres (.mk t a tx cs tl)).1 hf
            rw [hne] at h1
            rw [h1]
          | some im =>
            rw [hf] at hitm
            by_cases hh : hrefOfAttrs im.attrs = ""
            · have h2 := (findImage_norm_pres (.mk t a tx cs tl)).2 im hf hh
              rw [hne] at h2
              obtain ⟨im', h3, h4⟩ := h2
              rw [h3]
              have h5 : hrefOfAttrs im'.attrs = "" := by rw [h4, hh]
              simp [h5]
            · simp [hh] at hitm
        rw [normElem, if_pos hsvg, hkeep]
        exact normList_flagFix cs
    · have hne : normElem (.mk t a tx cs tl)
          = ((normList cs).1, .mk t a tx (normList cs).2 tl) := by
        rw [normElem, if_neg hsvg]
      rw [hne, normElem, if_neg hsvg]
      exact normList_flagFix cs
termination_by structural e => e
theorem normList_flagFix : ∀ cs : List Elem, (normList (normList cs).2).1 = false
  | [] => rfl
  | c :: cs => by
    have hl : (normList (c :: cs)).2 = (normElem c).2 :: (normList cs).2 := by
      rw [normList]
    rw [hl, normList]
    have h1 := normElem_flagFix c
    have h2 := normList_flagFix cs
    simp [h1, h2]
termination_by structural l => l
end

/-- C6: the markup normalizer is idempotent on a parsed verbatim
fragment: running the rewrite a second time finds nothing to change, so
the second run returns its input unchanged (the string-level function
returns the snippet unchanged whenever the `changed` flag stays false;
parse and serialize are the markup-library collaborator of spec §6). -/
theorem c6_idempotent (ns : List Elem) :
    normalize_placeholder_html (normalize_placeholder_html ns)
      = normalize_placeholder_html ns := by
  cases hf : (normList ns).1 with
  | false =>
    have h : normalize_placeholder_html ns = ns := by
      rw [normalize_placeholder_html, hf]
      simp
    rw [h, h]
  | true =>
    have h : normalize_placeholder_html ns = (normList ns).2 := by
      rw [normalize_placeholder_html, hf]
      simp
    rw [h, normalize_placeholder_html, normList_flagFix ns]
    simp

/-! ## C7: declarative characterization of `_svg_image_to_img` inside
`normalize_placeholder_html` -/

/-- Claim side: the first `image` element of the subtree in document
order. -/
def specFirstImage (e : Elem) : Option Elem :=
  (preorder e).find? (fun n => localName n.tag = "image")

/-- Claim side: the first `desc` element of the subtree carrying
non-whitespace text. -/
def specDescText (e : Elem) : Option String :=
  ((preorder e).find? (fun n => localName n.tag = "desc" && pyStrip n.text ≠ "")).map
    (fun n => pyStrip n.text)

mutual
theorem findImage_eq_spec : ∀ e : Elem, findImage e = specFirstImage e
  | .mk t a tx cs tl => by
    rw [findImage, specFirstImage, preorder]
    by_cases h : localName t = "image"
    · rw [if_pos h, List.find?_cons_of_pos _ (by simpa [Elem.tag] using h)]
    · rw [if_neg h, List.find?_cons_of_neg _ (by simpa [Elem.tag] using h)]
      exact findImageList_eq_spec cs
termination_by structural e => e
theorem findImageList_eq_spec : ∀ cs : List Elem,
    findImageList cs = (preorderList cs).find? (fun n => localName n.tag = "image")
  | [] => rfl
  | c :: cs => by
    rw [findImageList, preorderList, List.find?_append]
    rw [findImage_eq_spec c, findImageList_eq_spec cs]
    rw [specFirstImage]
    cases (preorder c).find? (fun n => localName n.tag = "image") with
    | some im => rfl
    | none => rfl
termination_by structural l => l
end

mutual
theorem findDescNonWs_eq_spec : ∀ e : Elem, findDescNonWs e = specDescText e
  | .mk t a tx cs tl => by
    rw [findDescNonWs, specDescText, preorder]
    by_cases h : (localName t = "desc" && pyStrip tx ≠ "") = true
    · rw [if_pos h, List.find?_cons_of_pos _ (by simpa [Elem.tag, Elem.text] using h)]
      simp [Elem.text]
    · rw [if_neg h, List.find?_cons_of_neg _ (by simpa [Elem.tag, Elem.text] using h)]
      exact findDescNonWsList_eq_spec cs
termination_by structural e => e
theorem findDescNonWsList_eq_spec : ∀ cs : List Elem,
    findDescNonWsList cs = ((preorderList cs).find?
      (fun n => localName n.tag = "desc" && pyStrip n.text ≠ "")).map
        (fun n => pyStrip n.text)
  | [] => rfl
  | c :: cs => by
    rw [findDescNonWsList, preorderList, List.find?_append]
    rw [findDescNonWs_eq_spec c, findDescNonWsList_eq_spec cs]
    rw [specDescText]
    cases (preorder c).find? (fun n => localName n.tag = "desc" && pyStrip n.text ≠ "") with
    | some d => rfl
    | none => rfl
termination_by structural l => l
end

/-- The kept form of an element whose replacement did not fire: same tag,
attributes, text and tail, children processed recursively. -/
def keepNorm (e : Elem) : Elem :=
  .mk e.tag e.attrs e.text (normList e.children).2 e.tail

/-- Claim side: the plain `img` element built from an image reference —
`src` is the resolved reference, `width`/`height` are copied when present
and non-empty, and the description text (when found) becomes `alt`. -/
def specImgFor (im : Elem) (dt : Option String) : Elem :=
  .mk "img"
    ([("src", hrefOfAttrs im.attrs)]
      ++ (match attrLookup im.attrs "width" with
          | some w => if w = "" then [] else [("width", w)]
          | none => [])
      ++ (match attrLookup im.attrs "height" with
          | some hv => if hv = "" then [] else [("height", hv)]
          | none => [])
      ++ (match dt with
          | some s => [("alt", s)]
          | none => []))
    "" [] ""

/-- Claim side: the subtree contains no `svg` element at all. -/
def noSvgB (e : Elem) : Bool :=
  (preorder e).all (fun n => localName n.tag ≠ "svg")

/-- Claim side (C7 as stated): the subtree holds an `image` element
carrying a non-empty reference under any of the three recognised keys. -/
def containsImageRefB (e : Elem) : Bool :=
  (preorder e).any (fun n => localName n.tag = "image" && hrefOfAttrs n.attrs ≠ "")

theorem specDescText_ne (e : Elem) (s : String) (h : specDescText e = some s) :
    s ≠ "" := by
  rw [specDescText] at h
  cases hf : (preorder e).find? (fun n => localName n.tag = "desc" && pyStrip n.text ≠ "") with
  | none =>
    rw [hf] at h
    cases h
  | some n =>
    rw [hf] at h
    have hp := List.find?_some hf
    simp at hp
    have hs : s = pyStrip n.text := (Option.some.inj h).symm
    rw [hs]
    exact hp.2

theorem svgITI_eq_spec (e : Elem) : svg_image_to_img e
    = match specFirstImage e with
      | none => none
      | some im =>
          if hrefOfAttrs im.attrs = "" then none
          else some (specImgFor im (specDescText e)) := by
  rw [svg_image_to_img, findImage_eq_spec]
  cases hf : specFirstImage e with
  | none => rfl
  | some im =>
    by_cases hh : hrefOfAttrs im.attrs = ""
    · simp [hh]
    · simp only [hh, if_neg, ite_false]
      rw [findDescNonWs_eq_spec]
      cases hd : specDescText e with
      | none => simp [specImgFor]
      | some s =>
        have hs := specDescText_ne e s hd
        simp [specImgFor, hs]

mutual
theorem noSvg_flagElem : ∀ e : Elem, noSvgB e = true → (normElem e).1 = false
  | .mk t a tx cs tl => fun h => by
    have hall := List.all_eq_true.mp h
    have hnode := hall (Elem.mk t a tx cs tl) (by rw [preorder]; exact List.mem_cons_self _ _)
    have hsvg : ¬ localName t = "svg" := by simpa [Elem.tag] using hnode
    have hkids : ∀ c ∈ cs, noSvgB c = true := by
      intro c hc
      apply List.all_eq_true.mpr
      intro n hn
      exact hall n (by rw [preorder]; exact List.mem_cons_of_mem _ (mem_preorderList_of_mem hc hn))
    rw [normElem, if_neg hsvg]
    exact noSvg_flagList cs hkids
termination_by structural e => e
theorem noSvg_flagList : ∀ cs : List Elem, (∀ c ∈ cs, noSvgB c = true) →
    (normList cs).1 = false
  | [] => fun _ => rfl
  | c :: cs => fun h => by
    rw [normList]
    have h1 := noSvg_flagElem c (h c (by simp))
    have h2 := noSvg_flagList cs (fun d hd => h d (by simp [hd]))
    simp [h1, h2]
termination_by structural l => l
end

/-- C7 amended: normalization replaces an `svg` element exactly when its
first `image` descendant (document order) resolves a non-empty reference
(`xlink` href, plain `href`, or literal `xlink:href`), producing a plain
`img` with that reference as `src`, the image's non-empty `width` and
`height`, and the first non-whitespace `desc` text as `alt`; an `svg`
whose first image resolves nothing — even if a later image carries a
reference — is kept with only its descendants processed; and a fragment
containing no `svg` at all is returned unchanged. -/
theorem c7_amended :
    (∀ e : Elem, localName e.tag = "svg" →
      (specFirstImage e = none → normElem e = ((normList e.children).1, keepNorm e))
      ∧ (∀ im, specFirstImage e = some im → hrefOfAttrs im.attrs = "" →
          normElem e = ((normList e.children).1, keepNorm e))
      ∧ (∀ im, specFirstImage e = some im → hrefOfAttrs im.attrs ≠ "" →
          normElem e = (true, specImgFor im (specDescText e))))
    ∧ (∀ ns : List Elem, ns.all noSvgB = true → normalize_placeholder_html ns = ns) := by
  constructor
  · intro e hsvg
    cases e with
    | mk t a tx cs tl =>
      have hsvg' : localName t = "svg" := by simpa [Elem.tag] using hsvg
      refine ⟨?_, ?_, ?_⟩
      · intro hf
        rw [normElem, if_pos hsvg', svgITI_eq_spec, hf]
        rfl
      · intro im hf hh
        rw [normElem, if_pos hsvg', svgITI_eq_spec, hf]
        simp only [hh, if_pos, ite_true]
        exact Prod.ext rfl rfl
      · intro im hf hh
        rw [normElem, if_pos hsvg', svgITI_eq_spec, hf]
        simp [hh]
  · intro ns h
    rw [normalize_placeholder_html]
    have hflag : (normList ns).1 = false := by
      apply noSvg_flagList
      intro c hc
      exact List.all_eq_true.mp h c hc
    rw [hflag]
    simp

/-- An `svg` whose first image has no reference but whose second image
does: it does contain an image reference, yet normalization passes the
block through unchanged. -/
def exC7 : Elem := .mk "svg" [] ""
  [.mk "image" [] "" [] "", .mk "image" [("href", "a.png")] "" [] ""] ""

/-- C7 counterexample: a fragment whose `svg` element contains an image
reference (its second `image` carries `href="a.png"`) is returned
unchanged, because `_svg_image_to_img` only consults the first `image`
descendant and that one resolves nothing — contradicting "replaces every
inline vector-graphic element that contains an image reference". -/
theorem c7_counterexample :
    normalize_placeholder_html [exC7] = [exC7]
      ∧ containsImageRefB exC7 = true
      ∧ localName exC7.tag = "svg" :=
  ⟨rfl, by decide, by decide⟩

def exW7img : Elem := .mk "image" [("href", "a.png"), ("width", "10")] "" [] ""

def exW7 : Elem := .mk "svg" [] "" [exW7img, .mk "desc" [] " hi " [] ""] ""

/-- C7 amended, witness at concrete inputs. -/
theorem c7_amended_witness :
    (localName exW7.tag = "svg" ∧ specFirstImage exW7 = some exW7img
      ∧ hrefOfAttrs exW7img.attrs ≠ ""
      ∧ normElem exW7 = (true, specImgFor exW7img (specDescText exW7)))
    ∧ ([imgE].all noSvgB = true ∧ normalize_placeholder_html [imgE] = [imgE]) :=
  ⟨⟨by decide, rfl, by decide,
    (c7_amended.1 exW7 (by decide)).2.2 exW7img rfl (by decide)⟩,
   ⟨by decide, c7_amended.2 [imgE] (by decide)⟩⟩

/-! ## Placeholder token grammar

`PLACEHOLDER_TEMPLATE = "[[EPUB_HTML_BLOCK_{:04d}]]"` and
`PLACEHOLDER_PATTERN = \[\[EPUB_HTML_BLOCK_\d{4}\]\]` (identical in
`extract_epub.py` and `build_epub.py`). -/

/-- Python `"{:04d}".format(n)`: decimal digits, zero-padded on the left
to a minimum width of four. -/
def pad4 (n : Nat) : String :=
  let s := toString n
  if s.length < 4 then String.mk (List.replicate (4 - s.length) '0') ++ s else s

def mkPlaceholder (n : Nat) : String := "[[EPUB_HTML_BLOCK_" ++ pad4 n ++ "]]"

def placeholderLead : List Char := "[[EPUB_HTML_BLOCK_".toList

/-- Match of `PLACEHOLDER_PATTERN` at the head of a character list:
the literal lead, exactly four ASCII digits, then `]]`.  Returns the
24-character token and the remainder. -/
def tokAt (cs : List Char) : Option (List Char × List Char) :=
  let hd := cs.take 24
  let ds := (hd.drop 18).take 4
  if hd.take 18 = placeholderLead && ds.length = 4 && ds.all Char.isDigit
      && hd.drop 22 = [']', ']'] then
    some (hd, cs.drop 24)
  else none

/-- A string is exactly one placeholder token of the 4-digit grammar. -/
def isPlaceholderToken (s : String) : Bool :=
  match tokAt s.toList with
  | some (_, rest) => rest.isEmpty
  | none => false

/-! ## Chapter extraction loop (`extract_text_and_extras`)

The loop is modelled over the snapshot `nodes = list(body.iter())` as a
fold over the document-order paths of the original body.  Tree mutation
(`parent.replace(elem, replacement)`) is explicit: the attached tree is
updated in place, and each replaced element's detached subtree is kept in
`detached`, keyed by the path it occupied, because the snapshot still
visits its descendants (their `getparent()` chain then stops at the
detached root).  The ancestor walk of `_should_extract_special_block`
stops at the root element handed to the loop; ancestors of the `<body>`
element inside the full parsed page are not modelled (they are only
reachable when the whole body is one special block). -/

def getAt : Elem → List Nat → Option Elem
  | e, [] => some e
  | e, i :: rest =>
      match e.children[i]? with
      | some c => getAt c rest
      | none => none

def replaceAt : Elem → List Nat → Elem → Elem
  | _, [], r => r
  | .mk t a tx cs tl, i :: rest, r =>
      match cs[i]? with
      | some c => .mk t a tx (cs.set i (replaceAt c rest r)) tl
      | none => .mk t a tx cs tl

/-- Ancestor chain (nearest first) of the node at a path, ending at the
tree's root — the `getparent()` walk. -/
def ancList : Elem → List Nat → List Elem
  | _, [] => []
  | e, i :: rest =>
      match e.children[i]? with
      | some c => ancList c rest ++ [e]
      | none => [e]

mutual
def preorderPaths : Elem → List (List Nat)
  | .mk _ _ _ cs _ => [] :: preorderPathsList 0 cs
termination_by structural e => e
def preorderPathsList : Nat → List Elem → List (List Nat)
  | _, [] => []
  | i, c :: cs => (preorderPaths c).map (fun p => i :: p) ++ preorderPathsList (i + 1) cs
termination_by structural i l => l
end

/-- The `<p>` replacement element holding a placeholder token and the
replaced element's tail. -/
def phElem (tok tl : String) : Elem := .mk "p" [] tok [] tl

structure ExSt where
  tree : Elem
  detached : List (List Nat × Elem)
  cnt : Nat
  extras : List (String × String)

/-- Nearest (longest-path) detached root strictly above a path: the
`getparent()` chain of a node inside a detached subtree stops at the most
recently detached ancestor. -/
def bestDetached (ds : List (List Nat × Elem)) (p : List Nat) : Option (List Nat × Elem) :=
  ds.foldl (fun acc qd =>
    if qd.1.isPrefixOf p && qd.1.length < p.length then
      match acc with
      | none => some qd
      | some best => if best.1.length < qd.1.length then some qd else some best
    else acc) none

def updateDetached (ds : List (List Nat × Elem)) (q : List Nat) (dt : Elem) :
    List (List Nat × Elem) :=
  ds.map (fun qd => if qd.1 = q then (q, dt) else qd)

/-- One iteration of the `for elem in nodes` loop.  A replaced element
itself (`getparent() is None and elem is not body`) is skipped; a node
inside a detached subtree is classified there (and never extracts, since
the detached root still has media and no meaningful text); an attached
node is classified against the current tree, and on extraction the
counter advances, the sanitized markup is recorded, and the element is
replaced by a placeholder paragraph (except for the root, which has no
parent to splice into). -/
def stepEx (st : ExSt) (p : List Nat) : ExSt :=
  if st.detached.any (fun qd => qd.1 = p) && p ≠ [] then st
  else
    match bestDetached st.detached p with
    | some (q, dt) =>
        match getAt dt (p.drop q.length) with
        | none => st
        | some el =>
            if should_extract_special_block el (ancList dt (p.drop q.length)) then
              { tree := st.tree
                detached := updateDetached st.detached q
                    (replaceAt dt (p.drop q.length)
                      (phElem (mkPlaceholder st.cnt) el.tail)) ++ [(p, el)]
                cnt := st.cnt + 1
                extras := st.extras ++ [(mkPlaceholder st.cnt, sanitize_special_block el)] }
            else st
    | none =>
        match getAt st.tree p with
        | none => st
        | some el =>
            if should_extract_special_block el (ancList st.tree p) then
              if p = [] then
                { st with
                  cnt := st.cnt + 1
                  extras := st.extras ++ [(mkPlaceholder st.cnt, sanitize_special_block el)] }
              else
                { tree := replaceAt st.tree p (phElem (mkPlaceholder st.cnt) el.tail)
                  detached := st.detached ++ [(p, el)]
                  cnt := st.cnt + 1
                  extras := st.extras ++ [(mkPlaceholder st.cnt, sanitize_special_block el)] }
            else st

/-- Model of `extract_text_and_extras`, restricted to the placeholder
records it returns (the plain-text assembly feeds no claim settled
here).  The counter starts at 1 and is local to the call. -/
def extract_text_and_extras (body : Elem) : List (String × String) :=
  ((preorderPaths body).foldl stepEx ⟨body, [], 1, []⟩).extras

def extractTokens (body : Elem) : List String :=
  (extract_text_and_extras body).map Prod.fst

/-! ## C5 lemmas -/

theorem stepEx_shape (st : ExSt) (p : List Nat) :
    ((stepEx st p).extras = st.extras ∧ (stepEx st p).cnt = st.cnt)
    ∨ (∃ h, (stepEx st p).extras = st.extras ++ [(mkPlaceholder st.cnt, h)]
        ∧ (stepEx st p).cnt = st.cnt + 1) := by
  rw [stepEx]
  split
  · exact Or.inl ⟨rfl, rfl⟩
  · split
    · split
      · exact Or.inl ⟨rfl, rfl⟩
      · split
        · exact Or.inr ⟨_, rfl, rfl⟩
        · exact Or.inl ⟨rfl, rfl⟩
    · split
      · exact Or.inl ⟨rfl, rfl⟩
      · split
        · split
          · exact Or.inr ⟨_, rfl, rfl⟩
          · exact Or.inr ⟨_, rfl, rfl⟩
        · exact Or.inl ⟨rfl, rfl⟩

theorem foldl_tokens : ∀ (ps : List (List Nat)) (st : ExSt),
    ∃ k, (ps.foldl stepEx st).extras.map Prod.fst
        = st.extras.map Prod.fst ++ (List.range' st.cnt k).map mkPlaceholder
      ∧ (ps.foldl stepEx st).cnt = st.cnt + k
  | [], st => ⟨0, by simp, by simp⟩
  | p :: ps, st => by
    rw [List.foldl_cons]
    obtain ⟨k, hk1, hk2⟩ := foldl_tokens ps (stepEx st p)
    rcases stepEx_shape st p with ⟨he, hc⟩ | ⟨h, he, hc⟩
    · exact ⟨k, by rw [hk1, he, hc], by rw [hk2, hc]⟩
    · refine ⟨k + 1, ?_, ?_⟩
      · rw [hk1, he, hc, List.map_append]
        rw [show List.range' st.cnt (k + 1) = st.cnt :: List.range' (st.cnt + 1) k from rfl]
        simp [List.append_assoc]
      · rw [hk2, hc]
        omega

/-- C5 amended: within one extraction call the placeholder tokens are
exactly `mkPlaceholder 1, mkPlaceholder 2, …` in the document order in
which the special blocks are extracted — strictly increasing numbers
starting at 1, each rendered zero-padded to a **minimum** width of four
digits (exactly four only while the chapter has at most 9999 special
blocks); the counter is local to the call, which is a pure function of
the chapter alone. -/
theorem c5_amended (body : Elem) :
    ∃ n, extractTokens body = (List.range' 1 n).map mkPlaceholder
      ∧ (extract_text_and_extras body).length = n := by
  obtain ⟨k, h1, _⟩ := foldl_tokens (preorderPaths body) ⟨body, [], 1, []⟩
  refine ⟨k, ?_, ?_⟩
  · rw [extractTokens, extract_text_and_extras]
    simpa using h1
  · have := congrArg List.length h1
    simpa [extract_text_and_extras] using this

theorem bestDetached_none (p : List Nat) : ∀ ds : List (List Nat × Elem),
    (∀ qd ∈ ds, (qd.1.isPrefixOf p && decide (qd.1.length < p.length)) = false) →
    bestDetached ds p = none := by
  intro ds
  induction ds with
  | nil => intro _; rfl
  | cons qd ds ih =>
    intro h
    have h0 := h qd (List.mem_cons_self _ _)
    have htail : bestDetached ds p = none := ih (fun x hx => h x (List.mem_cons_of_mem _ hx))
    rw [bestDetached, List.foldl_cons] at *
    simp only [h0] at *
    simpa using htail

theorem set_append_length {α : Type} : ∀ (cs : List α) (x y : α) (r : List α),
    (cs ++ x :: r).set cs.length y = cs ++ y :: r
  | [], _, _, _ => rfl
  | c :: cs, x, y, r => by
    simp [List.set, set_append_length cs x y r]

theorem preorderPathsList_replicate : ∀ (m i : Nat),
    preorderPathsList i (List.replicate m imgE) = (List.range' i m).map (fun j => [j])
  | 0, i => rfl
  | m + 1, i => by
    rw [List.replicate_succ, preorderPathsList, preorderPathsList_replicate m (i + 1)]
    rw [show List.range' i (m + 1) = i :: List.range' (i + 1) m from rfl]
    rfl

theorem meaningful_div_x (cs : List Elem) :
    has_meaningful_text (.mk "div" [] "x" cs "") = true := by
  rw [has_meaningful_text]
  simp only [Elem.text, Elem.tag]
  rw [show (nonWs "x" && !isIgnoredTag "div") = true from by decide]
  rfl

theorem should_extract_false_of_meaningful (e : Elem) (ancs : List Elem)
    (h : has_meaningful_text e = true) :
    should_extract_special_block e ancs = false := by
  rw [should_extract_special_block]
  by_cases hm : node_has_special_media e = true
  · simp [hm, h]
  · simp [Bool.eq_false_iff.mpr hm]

theorem should_extract_img_div (cs : List Elem) :
    should_extract_special_block imgE [.mk "div" [] "x" cs ""] = true := by
  rw [should_extract_special_block]
  rw [show node_has_special_media imgE = true from by decide]
  rw [show has_meaningful_text imgE = false from by decide]
  simp [meaningful_div_x]

theorem c5_step_eval (m : Nat) (cs : List Elem) (ds : List (List Nat × Elem))
    (c : Nat) (es : List (String × String))
    (hds : ∀ qd ∈ ds, ∃ j, qd.1 = [j] ∧ j < cs.length) :
    stepEx ⟨.mk "div" [] "x" (cs ++ List.replicate (m + 1) imgE) "", ds, c, es⟩ [cs.length]
      = ⟨.mk "div" [] "x" ((cs ++ [phElem (mkPlaceholder c) ""]) ++ List.replicate m imgE) "",
         ds ++ [([cs.length], imgE)], c + 1,
         es ++ [(mkPlaceholder c, sanitize_special_block imgE)]⟩ := by
  have hany : (ds.any (fun qd => qd.1 = [cs.length])) = false := by
    rw [List.any_eq_false]
    intro qd hqd
    obtain ⟨j, hj1, hj2⟩ := hds qd hqd
    simp [hj1]
    omega
  have hbd : bestDetached ds [cs.length] = none := by
    apply bestDetached_none
    intro qd hqd
    obtain ⟨j, hj1, _⟩ := hds qd hqd
    simp [hj1]
  have hidx : (cs ++ List.replicate (m + 1) imgE)[cs.length]? = some imgE := by
    rw [List.getElem?_append_right (le_refl cs.length)]
    simp [List.replicate_succ]
  have hget : getAt (.mk "div" [] "x" (cs ++ List.replicate (m + 1) imgE) "") [cs.length]
      = some imgE := by
    rw [getAt]
    simp only [Elem.children, hidx]
    rfl
  have hanc : ancList (.mk "div" [] "x" (cs ++ List.replicate (m + 1) imgE) "") [cs.length]
      = [.mk "div" [] "x" (cs ++ List.replicate (m + 1) imgE) ""] := by
    rw [ancList]
    simp only [Elem.children, hidx]
    rfl
  have hrep : replaceAt (.mk "div" [] "x" (cs ++ List.replicate (m + 1) imgE) "")
        [cs.length] (phElem (mkPlaceholder c) imgE.tail)
      = .mk "div" [] "x" ((cs ++ [phElem (mkPlaceholder c) ""]) ++ List.replicate m imgE) "" := by
    rw [replaceAt]
    simp only [hidx]
    rw [show List.replicate (m + 1) imgE = imgE :: List.replicate m imgE from
      List.replicate_succ _ _]
    have := set_append_length cs imgE (replaceAt imgE [] (phElem (mkPlaceholder c) imgE.tail))
      (List.replicate m imgE)
    rw [this]
    simp [replaceAt, imgE, Elem.tail, List.append_assoc]
  rw [stepEx]
  dsimp only
  rw [hany]
  simp only [Bool.false_and]
  rw [if_neg (by simp)]
  rw [hbd]
  dsimp only
  rw [hget]
  dsimp only
  rw [hanc, should_extract_img_div]
  simp only [if_true, ite_true]
  rw [if_neg (by simp : ¬ ([cs.length] : List Nat) = [])]
  rw [hrep]

theorem c5_fold_replicate : ∀ (m : Nat) (cs : List Elem) (ds : List (List Nat × Elem))
    (c : Nat) (es : List (String × String)),
    (∀ qd ∈ ds, ∃ j, qd.1 = [j] ∧ j < cs.length) →
    (((List.range' cs.length m).map (fun j => [j])).foldl stepEx
        ⟨.mk "div" [] "x" (cs ++ List.replicate m imgE) "", ds, c, es⟩).extras
      = es ++ (List.range' c m).map (fun i => (mkPlaceholder i, sanitize_special_block imgE))
  | 0, cs, ds, c, es => fun _ => by simp
  | m + 1, cs, ds, c, es => fun hds => by
    rw [show List.range' cs.length (m + 1) = cs.length :: List.range' (cs.length + 1) m from rfl]
    rw [List.map_cons, List.foldl_cons]
    rw [c5_step_eval m cs ds c es hds]
    have hds' : ∀ qd ∈ ds ++ [([cs.length], imgE)],
        ∃ j, qd.1 = [j] ∧ j < (cs ++ [phElem (mkPlaceholder c) ""]).length := by
      intro qd hqd
      rcases List.mem_append.mp hqd with h | h
      · obtain ⟨j, h1, h2⟩ := hds qd h
        refine ⟨j, h1, ?_⟩
        simp
        omega
      · have : qd = ([cs.length], imgE) := by simpa using h
        refine ⟨cs.length, by rw [this], ?_⟩
        simp
    have hlen : (cs ++ [phElem (mkPlaceholder c) ""]).length = cs.length + 1 := by simp
    have := c5_fold_replicate m (cs ++ [phElem (mkPlaceholder c) ""])
      (ds ++ [([cs.length], imgE)]) (c + 1)
      (es ++ [(mkPlaceholder c, sanitize_special_block imgE)]) hds'
    rw [hlen] at this
    rw [this]
    rw [show List.range' c (m + 1) = c :: List.range' (c + 1) m from rfl]
    simp

/-- The chapter used for the C5 counterexample: a `div` with one line of
prose and `n` sibling image special blocks, each of which is extracted. -/
def bigC5 (n : Nat) : Elem := .mk "div" [] "x" (List.replicate n imgE) ""

theorem bigC5_tokens (n : Nat) :
    extractTokens (bigC5 n) = (List.range' 1 n).map mkPlaceholder := by
  rw [extractTokens, extract_text_and_extras, bigC5]
  rw [show preorderPaths (.mk "div" [] "x" (List.replicate n imgE) "")
      = [] :: preorderPathsList 0 (List.replicate n imgE) from rfl]
  rw [preorderPathsList_replicate n 0]
  rw [List.foldl_cons]
  have hroot : stepEx ⟨.mk "div" [] "x" (List.replicate n imgE) "", [], 1, []⟩ []
      = ⟨.mk "div" [] "x" (List.replicate n imgE) "", [], 1, []⟩ := by
    rw [stepEx]
    dsimp only
    rw [if_neg (by simp)]
    rw [show bestDetached [] ([] : List Nat) = none from rfl]
    dsimp only
    rw [show getAt (.mk "div" [] "x" (List.replicate n imgE) "") [] =
        some (.mk "div" [] "x" (List.replicate n imgE) "") from rfl]
    dsimp only
    rw [should_extract_false_of_meaningful _ _ (meaningful_div_x _)]
    simp
  rw [hroot]
  have h0 := c5_fold_replicate n [] [] 1 [] (by intro qd h; cases h)
  simp only [List.nil_append, List.length_nil] at h0
  rw [h0]
  simp [List.map_map]

/-- C5 counterexample: a chapter with 10000 special blocks.  The 10000th
placeholder token is emitted as `[[EPUB_HTML_BLOCK_10000]]` — five
digits, not "exactly 4 digits", and no longer matching the placeholder
grammar used by the rebuild (so the claim's zero-padded-to-exactly-four
property fails; the numbering itself is still strictly increasing from
1). -/
theorem c5_counterexample :
    "[[EPUB_HTML_BLOCK_10000]]" ∈ extractTokens (bigC5 10000)
      ∧ isPlaceholderToken "[[EPUB_HTML_BLOCK_10000]]" = false
      ∧ isPlaceholderToken "[[EPUB_HTML_BLOCK_9999]]" = true := by
  refine ⟨?_, by decide, by decide⟩
  rw [bigC5_tokens]
  apply List.mem_map.mpr
  refine ⟨10000, ?_, by decide⟩
  apply List.mem_range'.mpr
  exact ⟨9999, by omega, by omega⟩

/-! ## Chapter rebuild (`render_text_with_extras`, `build_epub.py`)

The placeholder scan (`PLACEHOLDER_PATTERN.finditer`) is modelled by a
left-to-right scanner producing (chunk, token) pairs plus the tail; the
fuel argument only bounds the recursion and is always instantiated with
the input length (one unit per examined character suffices, and the empty
input returns for every fuel). -/

def scanAux : Nat → List Char → List Char → List (List Char × List Char) × List Char
  | _, cur, [] => ([], cur.reverse)
  | 0, cur, c :: rest => ([], cur.reverse ++ c :: rest)
  | fuel + 1, cur, c :: rest =>
      match tokAt (c :: rest) with
      | some (tok, rem) =>
          let r := scanAux fuel [] rem
          ((cur.reverse, tok) :: r.1, r.2)
      | none => scanAux fuel (c :: cur) rest

def scanText (cs : List Char) : List (List Char × List Char) × List Char :=
  scanAux cs.length [] cs

/-- Python `part.strip("\n")`. -/
def stripNl (cs : List Char) : List Char :=
  ((cs.dropWhile (fun c => c = '\n')).reverse.dropWhile (fun c => c = '\n')).reverse

/-- The `re.split(r"\n\s*\n", ...)` of `_split_paragraphs`: a match starts
at a newline whose whitespace run holds a second newline and consumes the
run up to (and including) its last newline — the greedy `\s*` backtracks
to end on a newline.  `re.split` semantics: the scanner always emits the
final part, so the result has one more part than there are matches. -/
def splitBlankAux : Nat → List Char → List Char → List (List Char)
  | _, cur, [] => [cur.reverse]
  | 0, cur, c :: rest => [cur.reverse ++ c :: rest]
  | fuel + 1, cur, c :: rest =>
      if c = '\n' then
        let run := (c :: rest).takeWhile isPySpace
        if 2 ≤ run.count '\n' then
          let consumed := (run.reverse.dropWhile (fun ch => ch ≠ '\n')).reverse
          cur.reverse :: splitBlankAux fuel [] ((c :: rest).drop consumed.length)
        else splitBlankAux fuel (c :: cur) rest
      else splitBlankAux fuel (c :: cur) rest

def splitBlank (cs : List Char) : List (List Char) :=
  splitBlankAux cs.length [] cs

/-- Model of `_split_paragraphs`. -/
def split_paragraphs (chunk : List Char) : List (List Char) :=
  let normalized := replaceCRLF chunk
  if allWsL normalized then []
  else (splitBlank normalized).filterMap (fun part =>
    let trimmed := stripNl part
    if !allWsL trimmed then some trimmed else none)

/-- Python `html.escape` (quote=True). -/
def htmlEscape (cs : List Char) : List Char :=
  cs.flatMap (fun c =>
    if c = '&' then "&amp;".toList
    else if c = '<' then "&lt;".toList
    else if c = '>' then "&gt;".toList
    else if c = '"' then "&quot;".toList
    else if c = Char.ofNat 39 then "&#x27;".toList
    else [c])

/-- Python `paragraph.split("\n")` (keeps empty pieces). -/
def splitOnNlAux : List Char → List Char → List (List Char)
  | cur, [] => [cur.reverse]
  | cur, '\n' :: rest => cur.reverse :: splitOnNlAux [] rest
  | cur, c :: rest => splitOnNlAux (c :: cur) rest

def joinWith (sep : List Char) : List (List Char) → List Char
  | [] => []
  | [x] => x
  | x :: xs => x ++ sep ++ joinWith sep xs

/-- Model of `_paragraph_to_html`. -/
def paragraph_to_html (p : List Char) : List Char :=
  "<p>".toList ++ joinWith "<br/>".toList ((splitOnNlAux [] p).map htmlEscape)
    ++ "</p>".toList

/-- Model of `_chunk_to_html_blocks`. -/
def chunk_to_html_blocks (chunk : List Char) : List String :=
  (split_paragraphs chunk).map (fun p => String.mk (paragraph_to_html p))

/-- The `placeholder_map` dict comprehension: entries with falsy
placeholder or falsy html are dropped; a later duplicate key wins, so
lookup searches the reversed list. -/
def placeholderLookup (meta : List (String × String)) (tok : String) : Option String :=
  (((meta.filter (fun e => e.1 ≠ "" && e.2 ≠ "")).reverse).find?
    (fun e => e.1 = tok)).map (·.2)

/-- The per-token contribution: the looked-up record's markup, normalized
(`normHtml` stands for the string-level `normalize_placeholder_html`,
which needs the markup-library parser; its tree-level core is
`normalize_placeholder_html` above); a token without a record contributes
nothing. -/
def specialBlocks (meta : List (String × String)) (normHtml : String → String)
    (tok : List Char) : List String :=
  match placeholderLookup meta (String.mk tok) with
  | some h => if h = "" then [] else [normHtml h]
  | none => []

def assembleScanned (meta : List (String × String)) (normHtml : String → String)
    (cs : List Char) : List String :=
  let r := scanText cs
  r.1.flatMap (fun pr => chunk_to_html_blocks pr.1 ++ specialBlocks meta normHtml pr.2)
    ++ chunk_to_html_blocks r.2

/-- Model of `render_text_with_extras`. -/
def render_text_with_extras (text : String) (meta : List (String × String))
    (normHtml : String → String) : String :=
  let blocks := assembleScanned meta normHtml (replaceCRLF text.toList)
  let joined := String.join blocks
  if joined = "" then "<p></p>" else joined

/-! ## C1 lemmas: scanner decomposition around one placeholder token -/

def tokChars (d1 d2 d3 d4 : Char) : List Char :=
  placeholderLead ++ [d1, d2, d3, d4] ++ [']', ']']

theorem scanAux_nil (f : Nat) (cur : List Char) : scanAux f cur [] = ([], cur.reverse) := by
  cases f <;> rfl

theorem tokAt_break {cs t r : List Char} (h : tokAt cs = some (t, r)) :
    t = cs.take 24 ∧ r = cs.drop 24 := by
  rw [tokAt] at h
  split at h
  · have := Option.some.inj h
    exact ⟨(congrArg Prod.fst this).symm, (congrArg Prod.snd this).symm⟩
  · cases h

theorem scanAux_fuel_irrel : ∀ (f1 : Nat) (cs : List Char) (f2 : Nat) (cur : List Char),
    cs.length ≤ f1 → cs.length ≤ f2 → scanAux f1 cur cs = scanAux f2 cur cs
  | _, [], _, cur, _, _ => by rw [scanAux_nil, scanAux_nil]
  | f1, c :: rest, f2, cur, h1, h2 => by
    cases f1 with
    | zero => simp at h1
    | succ a =>
      cases f2 with
      | zero => simp at h2
      | succ b =>
        rw [scanAux, scanAux]
        have ha : rest.length ≤ a := by simpa using h1
        have hb : rest.length ≤ b := by simpa using h2
        cases htk : tokAt (c :: rest) with
        | none =>
          simp only [htk]
          exact scanAux_fuel_irrel a rest b (c :: cur) ha hb
        | some pr =>
          obtain ⟨t, r⟩ := pr
          simp only [htk]
          have hr := (tokAt_break htk).2
          have hrl : r.length ≤ a ∧ r.length ≤ b := by
            rw [hr]
            simp
            omega
          rw [scanAux_fuel_irrel a r b [] hrl.1 hrl.2]

theorem scan_chunk : ∀ (pre : List Char) (fuel : Nat) (cur rest : List Char),
    (pre ++ rest).length ≤ fuel →
    (∀ i, i < pre.length → tokAt (pre.drop i ++ rest) = none) →
    scanAux fuel cur (pre ++ rest) = scanAux (fuel - pre.length) (pre.reverse ++ cur) rest
  | [], fuel, cur, rest, _, _ => by simp
  | c :: pre, fuel, cur, rest, h1, h2 => by
    cases fuel with
    | zero => simp at h1
    | succ f =>
      rw [List.cons_append, scanAux]
      have h0 : tokAt (c :: (pre ++ rest)) = none := by
        have := h2 0 (by simp)
        simpa using this
      simp only [h0]
      have hrec := scan_chunk pre f (c :: cur) rest (by simpa using h1)
        (fun i hi => by
          have := h2 (i + 1) (by simpa using Nat.succ_lt_succ hi)
          simpa using this)
      rw [hrec]
      simp [Nat.succ_sub_succ]

theorem tokAt_tokChars (d1 d2 d3 d4 : Char) (rest : List Char)
    (hd : (d1.isDigit && d2.isDigit && d3.isDigit && d4.isDigit) = true) :
    tokAt (tokChars d1 d2 d3 d4 ++ rest) = some (tokChars d1 d2 d3 d4, rest) := by
  simp only [Bool.and_eq_true] at hd
  obtain ⟨⟨⟨h1, h2⟩, h3⟩, h4⟩ := hd
  rw [tokAt]
  split
  · rfl
  · rename_i hcond
    exfalso
    apply hcond
    simp +decide [tokChars, placeholderLead, h1, h2, h3, h4]

theorem scanAux_tok (f : Nat) (cur : List Char) (d1 d2 d3 d4 : Char) (post : List Char)
    (hd : (d1.isDigit && d2.isDigit && d3.isDigit && d4.isDigit) = true) :
    scanAux (f + 1) cur (tokChars d1 d2 d3 d4 ++ post)
      = ((cur.reverse, tokChars d1 d2 d3 d4) :: (scanAux f [] post).1,
         (scanAux f [] post).2) := by
  have hsh : tokChars d1 d2 d3 d4 ++ post
      = '[' :: ("[EPUB_HTML_BLOCK_".toList ++ [d1, d2, d3, d4] ++ [']', ']'] ++ post) := rfl
  rw [hsh, scanAux]
  rw [hsh.symm]
  rw [tokAt_tokChars d1 d2 d3 d4 post hd]

theorem tokChars_length (d1 d2 d3 d4 : Char) : (tokChars d1 d2 d3 d4).length = 24 := by
  simp [tokChars, placeholderLead]

theorem scanText_break (pre post : List Char) (d1 d2 d3 d4 : Char)
    (hd : (d1.isDigit && d2.isDigit && d3.isDigit && d4.isDigit) = true)
    (hpre : ∀ i, i < pre.length → tokAt (pre.drop i ++ (tokChars d1 d2 d3 d4 ++ post)) = none) :
    scanText (pre ++ tokChars d1 d2 d3 d4 ++ post)
      = ((pre, tokChars d1 d2 d3 d4) :: (scanText post).1, (scanText post).2) := by
  rw [scanText, List.append_assoc]
  rw [scan_chunk pre _ [] (tokChars d1 d2 d3 d4 ++ post)
    (by rw [← List.append_assoc]) hpre]
  have hfuel : (pre ++ (tokChars d1 d2 d3 d4 ++ post)).length - pre.length
      = (23 + post.length) + 1 := by
    simp [tokChars_length]
    omega
  rw [← List.append_assoc] at hfuel ⊢
  rw [show (pre ++ tokChars d1 d2 d3 d4 ++ post).length - pre.length = (23 + post.length) + 1
      from by rw [List.append_assoc] at hfuel ⊢; exact hfuel]
  rw [scanAux_tok (23 + post.length) (pre.reverse ++ []) d1 d2 d3 d4 post hd]
  rw [scanAux_fuel_irrel (23 + post.length) post post.length [] (by omega) (le_refl _)]
  simp [scanText]

/-- Contiguous-substring test used to state that a token's text appears
nowhere in an output string. -/
def containsSeq : List Char → List Char → Bool
  | needle, [] => needle.isEmpty
  | needle, c :: rest => needle.isPrefixOf (c :: rest) || containsSeq needle rest

/-- C1 counterexample: rebuilding text that holds a well-formed
placeholder token with an empty record list does not fail, but the
token's text appears nowhere in the output — the token is silently
dropped instead of being kept as an escaped paragraph. -/
theorem c1_counterexample :
    render_text_with_extras "a\n\n[[EPUB_HTML_BLOCK_0001]]\n\nb" [] (fun s => s)
      = "<p>a</p><p>b</p>"
      ∧ containsSeq "[[EPUB_HTML_BLOCK_0001]]".toList "<p>a</p><p>b</p>".toList = false :=
  ⟨by decide, by decide⟩

/-- C1 amended: when the rebuild meets a token of the placeholder grammar
whose record is missing, it does not fail; the token contributes no block
at all — the output is exactly the surrounding chunks' paragraphs (with
the empty-result fallback `<p></p>`), and the token's text is not kept as
prose. -/
theorem c1_amended (pre post : List Char) (meta : List (String × String))
    (normHtml : String → String) (d1 d2 d3 d4 : Char)
    (hd : (d1.isDigit && d2.isDigit && d3.isDigit && d4.isDigit) = true)
    (hmiss : placeholderLookup meta (String.mk (tokChars d1 d2 d3 d4)) = none)
    (hpre : ∀ i, i < pre.length → tokAt (pre.drop i ++ (tokChars d1 d2 d3 d4 ++ post)) = none)
    (hnorm : replaceCRLF (pre ++ tokChars d1 d2 d3 d4 ++ post)
        = pre ++ tokChars d1 d2 d3 d4 ++ post) :
    render_text_with_extras (String.mk (pre ++ tokChars d1 d2 d3 d4 ++ post)) meta normHtml
      = (if String.join (chunk_to_html_blocks pre ++ assembleScanned meta normHtml post) = ""
         then "<p></p>"
         else String.join (chunk_to_html_blocks pre ++ assembleScanned meta normHtml post)) := by
  have hsp : specialBlocks meta normHtml (tokChars d1 d2 d3 d4) = [] := by
    rw [specialBlocks, hmiss]
  have hs : assembleScanned meta normHtml (pre ++ tokChars d1 d2 d3 d4 ++ post)
      = chunk_to_html_blocks pre ++ assembleScanned meta normHtml post := by
    rw [assembleScanned, scanText_break pre post d1 d2 d3 d4 hd hpre]
    rw [assembleScanned]
    simp [hsp, List.append_assoc]
  simp only [render_text_with_extras, String.toList]
  rw [hnorm, hs]

/-- C1 amended, witness at a concrete input. -/
theorem c1_amended_witness :
    (('0'.isDigit && '0'.isDigit && '0'.isDigit && '1'.isDigit) = true)
    ∧ placeholderLookup [] (String.mk (tokChars '0' '0' '0' '1')) = none
    ∧ (∀ i, i < "a\n\n".toList.length →
        tokAt ("a\n\n".toList.drop i ++ (tokChars '0' '0' '0' '1' ++ "\n\nb".toList)) = none)
    ∧ replaceCRLF ("a\n\n".toList ++ tokChars '0' '0' '0' '1' ++ "\n\nb".toList)
        = "a\n\n".toList ++ tokChars '0' '0' '0' '1' ++ "\n\nb".toList
    ∧ render_text_with_extras
        (String.mk ("a\n\n".toList ++ tokChars '0' '0' '0' '1' ++ "\n\nb".toList)) [] (fun s => s)
      = (if String.join (chunk_to_html_blocks "a\n\n".toList
            ++ assembleScanned [] (fun s => s) "\n\nb".toList) = ""
         then "<p></p>"
         else String.join (chunk_to_html_blocks "a\n\n".toList
            ++ assembleScanned [] (fun s => s) "\n\nb".toList)) :=
  ⟨by decide, by decide, by decide, by decide,
   c1_amended _ _ _ _ _ _ _ _ (by decide) (by decide) (by decide) (by decide)⟩

/-! ## TOC reconstruction (`build_toc`, `build_epub.py`)

A serialized TOC node is the JSON object of `epub_types.TocNode`: the
optional `kind`, `title`, `href`, `uid`, `file_name` fields and the
`children` list.  `epub.Section` / `epub.Link` / `epub.EpubHtml` results
and the tuple groupings are the `TocElement` variants; `raise SystemExit`
is the `Except.error` branch.  The in-place `chapter.title = ...`
override is modelled as a functional update on the returned chapter. -/

inductive TocNode where
  | mk (kind title href uid file_name : Option String) (children : List TocNode)

structure Chapter where
  file_name : String
  title : String
deriving DecidableEq

inductive TocElement where
  | sec (title : String) (children : List TocElement)
  | chap (c : Chapter)
  | chapWith (c : Chapter) (children : List TocElement)
  | link (href title uid : String)
  | linkWith (href title uid : String) (children : List TocElement)
  | bare (children : List TocElement)
  | txt (s : String)

/-- Model of `chapters.get(file_name)` — a `None` key never resolves. -/
def lookupChapter (chs : List (String × Chapter)) (fn : Option String) : Option Chapter :=
  match fn with
  | none => none
  | some n => (chs.find? (fun e => e.1 = n)).map (·.2)

/-- Model of `if entry.get("title"): chapter.title = entry["title"]`. -/
def overrideTitle (ch : Chapter) (t : Option String) : Chapter :=
  match t with
  | some s => if s = "" then ch else { ch with title := s }
  | none => ch

def optStr (o : Option String) : String :=
  match o with
  | some s => s
  | none => "None"

mutual
def convertEntry (chs : List (String × Chapter)) : TocNode → Except String TocElement
  | .mk kind title href uid file_name children =>
      match convertList chs children with
      | .error e => .error e
      | .ok cs =>
          if kind = some "section" then .ok (.sec (pyGetOr title "Section") cs)
          else if kind = some "html" then
            match lookupChapter chs file_name with
            | none => .error ("TOC references unknown chapter: " ++ optStr file_name)
            | some ch =>
                if cs.isEmpty then .ok (.chap (overrideTitle ch title))
                else .ok (.chapWith (overrideTitle ch title) cs)
          else if kind = some "link" then
            if cs.isEmpty then
              .ok (.link (pyGetOr href "") (pyGetOr title (pyGetOr href "Link"))
                (pyGetOr uid (pyGetOr href (pyGetOr title "link"))))
            else
              .ok (.linkWith (pyGetOr href "") (pyGetOr title (pyGetOr href "Link"))
                (pyGetOr uid (pyGetOr href (pyGetOr title "link"))) cs)
          else if cs.isEmpty then .ok (.txt (pyGetOr title "Untitled"))
          else .ok (.bare cs)
termination_by structural n => n
def convertList (chs : List (String × Chapter)) : List TocNode → Except String (List TocElement)
  | [] => .ok []
  | n :: rest =>
      match convertEntry chs n with
      | .error e => .error e
      | .ok el =>
          match convertList chs rest with
          | .error e => .error e
          | .ok els => .ok (el :: els)
termination_by structural l => l
end

/-- Model of `build_toc`. -/
def build_toc (entries : List TocNode) (chs : List (String × Chapter)) :
    Except String (List TocElement) :=
  if entries.isEmpty then .ok [] else convertList chs entries

def isErr {ε α : Type} : Except ε α → Bool
  | .error _ => true
  | .ok _ => false

/-! Claim side (C8): some node of kind `html` anywhere in the forest has
a `file_name` that the chapter lookup does not resolve. -/

mutual
def anyUnresolvedNode (chs : List (String × Chapter)) : TocNode → Bool
  | .mk kind _ _ _ file_name children =>
      (kind = some "html" && (lookupChapter chs file_name).isNone)
        || anyUnresolvedList chs children
termination_by structural n => n
def anyUnresolvedList (chs : List (String × Chapter)) : List TocNode → Bool
  | [] => false
  | n :: rest => anyUnresolvedNode chs n || anyUnresolvedList chs rest
termination_by structural l => l
end

mutual
theorem unresolved_node_err : ∀ (chs : List (String × Chapter)) (n : TocNode),
    anyUnresolvedNode chs n = true → isErr (convertEntry chs n) = true
  | chs, .mk kind title href uid file_name children => fun h => by
    rw [anyUnresolvedNode, Bool.or_eq_true] at h
    rw [convertEntry]
    cases hcl : convertList chs children with
    | error e => simp only [hcl, isErr]
    | ok cs =>
      simp only [hcl]
      rcases h with h1 | h2
      · rw [Bool.and_eq_true] at h1
        obtain ⟨hk, hlk⟩ := h1
        have hk' : kind = some "html" := of_decide_eq_true hk
        have hlk' : lookupChapter chs file_name = none := Option.isNone_iff_eq_none.mp hlk
        rw [hk']
        rw [if_neg (by decide : ¬ (some "html" : Option String) = some "section")]
        simp [hlk', isErr]
      · have := unresolved_list_err chs children h2
        rw [hcl] at this
        cases this
termination_by structural chs n => n
theorem unresolved_list_err : ∀ (chs : List (String × Chapter)) (l : List TocNode),
    anyUnresolvedList chs l = true → isErr (convertList chs l) = true
  | _, [] => fun h => by cases h
  | chs, n :: rest => fun h => by
    rw [anyUnresolvedList, Bool.or_eq_true] at h
    rw [convertList]
    cases hce : convertEntry chs n with
    | error e => simp only [hce, isErr]
    | ok el =>
      simp only [hce]
      rcases h with h1 | h2
      · have := unresolved_node_err chs n h1
        rw [hce] at this
        cases this
      · cases hcl : convertList chs rest with
        | error e => simp only [hcl, isErr]
        | ok els =>
          have := unresolved_list_err chs rest h2
          rw [hcl] at this
          cases this
termination_by structural chs l => l
end

/-- C8: a serialized `html` node whose file name the chapter lookup does
not resolve makes the whole rebuild fail with the structural-consistency
error; a resolving `html` node reconstructs the corresponding chapter
(with the title override applied and wrapped with its children when
present). -/
theorem c8_html_resolution :
    (∀ (chs : List (String × Chapter)) (entries : List TocNode),
        anyUnresolvedList chs entries = true → isErr (build_toc entries chs) = true)
    ∧ (∀ (chs : List (String × Chapter)) (t h u : Option String) (n : String)
        (ch : Chapter) (children : List TocNode) (cs : List TocElement),
        lookupChapter chs (some n) = some ch →
        convertList chs children = .ok cs →
        convertEntry chs (.mk (some "html") t h u (some n) children)
          = .ok (if cs.isEmpty then .chap (overrideTitle ch t)
                 else .chapWith (overrideTitle ch t) cs)) := by
  constructor
  · intro chs entries h
    rw [build_toc]
    cases entries with
    | nil => cases h
    | cons n rest =>
      rw [if_neg (by simp)]
      exact unresolved_list_err chs _ h
  · intro chs t h u n ch children cs hlk hcl
    rw [convertEntry]
    simp only [hcl]
    rw [if_neg (by decide : ¬ (some "html" : Option String) = some "section")]
    simp only [if_true, hlk]
    cases hemp : cs.isEmpty <;> simp [hemp]

/-- C8 witness at concrete inputs: a one-chapter lookup, one unresolved
`html` node making the rebuild fail, and one resolving `html` node. -/
theorem c8_html_resolution_witness :
    (anyUnresolvedList [("c1", ⟨"c1", "T1"⟩)]
        [.mk (some "html") none none none (some "missing") []] = true
      ∧ isErr (build_toc [.mk (some "html") none none none (some "missing") []]
          [("c1", ⟨"c1", "T1"⟩)]) = true)
    ∧ (lookupChapter [("c1", ⟨"c1", "T1"⟩)] (some "c1") = some ⟨"c1", "T1"⟩
      ∧ convertList [("c1", ⟨"c1", "T1"⟩)] ([] : List TocNode) = .ok []
      ∧ convertEntry [("c1", ⟨"c1", "T1"⟩)]
          (.mk (some "html") (some "New") none none (some "c1") [])
        = .ok (if ([] : List TocElement).isEmpty
               then .chap (overrideTitle ⟨"c1", "T1"⟩ (some "New"))
               else .chapWith (overrideTitle ⟨"c1", "T1"⟩ (some "New")) [])) :=
  ⟨⟨rfl, c8_html_resolution.1 [("c1", ⟨"c1", "T1"⟩)]
      [.mk (some "html") none none none (some "missing") []] rfl⟩,
   ⟨rfl, rfl, c8_html_resolution.2 [("c1", ⟨"c1", "T1"⟩)] (some "New") none none "c1"
      ⟨"c1", "T1"⟩ [] [] rfl rfl⟩⟩

/-- C9 counterexample: a `link` node with both title and href present but
no id gets its id defaulted from the HREF, not from the title — the code
chains `uid or href or title or "link"`, the claim says title before
href. -/
theorem c9_counterexample :
    convertEntry [] (.mk (some "link") (some "T") (some "a.html") none none [])
      = .ok (.link "a.html" "T" "a.html")
      ∧ ("a.html" : String) ≠ "T" :=
  ⟨rfl, by decide⟩

/-- C9 amended: a serialized `link` node whose children reconstruct never
fails; the title defaults to the href and then to the fixed string
"Link" when absent or empty, and the id defaults to the HREF first, then
the title, then the fixed string "link". -/
theorem c9_amended (chs : List (String × Chapter)) (t h u : Option String)
    (children : List TocNode) (cs : List TocElement)
    (hcl : convertList chs children = .ok cs) :
    convertEntry chs (.mk (some "link") t h u none children)
      = .ok (if cs.isEmpty
             then .link (pyGetOr h "") (pyGetOr t (pyGetOr h "Link"))
                    (pyGetOr u (pyGetOr h (pyGetOr t "link")))
             else .linkWith (pyGetOr h "") (pyGetOr t (pyGetOr h "Link"))
                    (pyGetOr u (pyGetOr h (pyGetOr t "link"))) cs) := by
  rw [convertEntry]
  simp only [hcl]
  rw [if_neg (by decide : ¬ (some "link" : Option String) = some "section")]
  rw [if_neg (by decide : ¬ (some "link" : Option String) = some "html")]
  simp only [if_true]
  cases hemp : cs.isEmpty <;> simp [hemp]

/-- C9 amended, witness at a concrete input. -/
theorem c9_amended_witness :
    convertList [] ([] : List TocNode) = .ok []
    ∧ convertEntry [] (.mk (some "link") none (some "x.html") none none [])
      = .ok (if ([] : List TocElement).isEmpty
             then .link (pyGetOr (some "x.html") "")
                    (pyGetOr none (pyGetOr (some "x.html") "Link"))
                    (pyGetOr none (pyGetOr (some "x.html") (pyGetOr none "link")))
             else .linkWith (pyGetOr (some "x.html") "")
                    (pyGetOr none (pyGetOr (some "x.html") "Link"))
                    (pyGetOr none (pyGetOr (some "x.html") (pyGetOr none "link"))) []) :=
  ⟨rfl, c9_amended [] none (some "x.html") none [] [] rfl⟩

/-! ## Item catalog path sanitization (`sanitize_relative_path`,
`extract_epub.py`)

`PurePosixPath(name or fallback).parts` includes the root anchor (`'/'`,
or `'//'` for the POSIX double-slash special case) as its first part;
empty and `'.'` segments never appear in `.parts`.  The result models
`pathlib.Path(*filtered)` as its list of parts: the path is absolute
exactly when the anchor part survives. -/

def splitOnCharAux (sep : Char) : List Char → List Char → List (List Char)
  | cur, [] => [cur.reverse]
  | cur, c :: rest =>
      if c = sep then cur.reverse :: splitOnCharAux sep [] rest
      else splitOnCharAux sep (c :: cur) rest

/-- Model of `PurePosixPath(s).parts`. -/
def posixParts (s : String) : List String :=
  let cs := s.toList
  let root : List String :=
    match cs with
    | '/' :: '/' :: '/' :: _ => ["/"]
    | '/' :: '/' :: _ => ["//"]
    | '/' :: _ => ["/"]
    | _ => []
  root ++ ((splitOnCharAux '/' [] cs).map String.mk).filter (fun p => p ≠ "" && p ≠ ".")

/-- Model of `sanitize_relative_path`, returning the parts of the
resulting `pathlib.Path`. -/
def sanitize_relative_path (name fallback : String) : List String :=
  let source := if name = "" then fallback else name
  let filtered := (posixParts source).filter (fun part => part ≠ ".." && part ≠ "" && part ≠ ".")
  if filtered.isEmpty then [fallback] else filtered

def isAbsolutePath (parts : List String) : Bool :=
  match parts with
  | p :: _ => p = "/" || p = "//"
  | [] => false

/-- C3: the sanitizer is safe for `..`/`.`/empty segments and honours the
fallback, but `PurePosixPath.parts` keeps the root anchor `/`, which the
`("..", "", ".")` filter does not drop — a declared item name that is an
absolute path survives as an absolute path, and `out_dir / absolute`
escapes the output directory entirely. -/
theorem c3_path_traversal :
    sanitize_relative_path "/etc/passwd" "item_0.bin" = ["/", "etc", "passwd"]
      ∧ isAbsolutePath (sanitize_relative_path "/etc/passwd" "item_0.bin") = true
      ∧ sanitize_relative_path "../..//x/./y" "item_1.bin" = ["x", "y"]
      ∧ sanitize_relative_path "../.." "item_2.bin" = ["item_2.bin"]
      ∧ sanitize_relative_path "" "item_3.bin" = ["item_3.bin"] :=
  ⟨by decide, by decide, by decide, by decide, by decide⟩

/-! ## Translated-text merge (`apply_translation`,
`build_translated_epub.py`)

`str.splitlines` is modelled for the `\n`, `\r\n` and `\r` terminators
(the texts written by the extractor contain only `\n`). -/

def splitlinesAux : List Char → List Char → List (List Char)
  | cur, [] => if cur.isEmpty then [] else [cur.reverse]
  | cur, '\r' :: '\n' :: rest => cur.reverse :: splitlinesAux [] rest
  | cur, '\r' :: rest => cur.reverse :: splitlinesAux [] rest
  | cur, '\n' :: rest => cur.reverse :: splitlinesAux [] rest
  | cur, c :: rest => splitlinesAux (c :: cur) rest

def pythonSplitlines (s : String) : List String :=
  (splitlinesAux [] s.toList).map String.mk

/-- Python `"\n".join(lines)`. -/
def pyJoinNl (ls : List String) : String :=
  String.mk (joinWith ['\n'] (ls.map String.toList))

/-- Model of `apply_translation`: on a line-count mismatch the original
text is returned unchanged; otherwise each line prefers the translated
line unless it is blank while the original line is not. -/
def apply_translation (original_text : String) (translated_lines : List String) : String :=
  let original_lines := pythonSplitlines original_text
  if original_lines.length ≠ translated_lines.length then original_text
  else pyJoinNl (List.zipWith
    (fun orig trans => if pyStrip trans ≠ "" || pyStrip orig = "" then trans else orig)
    original_lines translated_lines)

/-- C10 counterexample: original text "a\n\n" has two `splitlines` lines
(`["a", ""]`); merging with the two translated lines `["b", ""]` yields
"b\n", which has only one `splitlines` line — the merged text does not
have "exactly that number of lines" under Python's own line convention
when the final merged line is empty. -/
theorem c10_counterexample :
    apply_translation "a\n\n" ["b", ""] = "b\n"
      ∧ (pythonSplitlines "a\n\n").length = 2
      ∧ (pythonSplitlines "b\n").length = 1 :=
  ⟨by decide, by decide, by decide⟩

/-- C10 amended: on a line-count mismatch the original text is returned
unchanged; on a match the result is the newline-join of exactly n merged
lines, where line i is the translated line when it has non-whitespace
content or the original line is whitespace-only, and the original line
otherwise (so a blank translated line never erases a non-blank original
line) — but a trailing empty merged line is not observable as a separate
line of the serialized text. -/
theorem c10_amended (original : String) (translated : List String) :
    ((pythonSplitlines original).length ≠ translated.length →
        apply_translation original translated = original)
    ∧ ((pythonSplitlines original).length = translated.length →
        ∃ merged : List String,
          apply_translation original translated = pyJoinNl merged
          ∧ merged.length = translated.length
          ∧ ∀ (i : Nat), (hi : i < merged.length) → (ho : i < (pythonSplitlines original).length) →
              (ht : i < translated.length) →
              merged[i] = if pyStrip translated[i] ≠ "" || pyStrip (pythonSplitlines original)[i] = ""
                          then translated[i] else (pythonSplitlines original)[i]) := by
  constructor
  · intro h
    rw [apply_translation, if_pos h]
  · intro h
    refine ⟨List.zipWith
      (fun orig trans => if pyStrip trans ≠ "" || pyStrip orig = "" then trans else orig)
      (pythonSplitlines original) translated, ?_, ?_, ?_⟩
    · rw [apply_translation, if_neg (by omega)]
    · rw [List.length_zipWith, h, Nat.min_self]
    · intro i hi ho ht
      rw [List.getElem_zipWith]

/-- C10 amended, witness at a concrete input. -/
theorem c10_amended_witness :
    ((pythonSplitlines "keep\n\nme").length = (["tr1", "", "tr3"] : List String).length
      ∧ ∃ merged : List String,
          apply_translation "keep\n\nme" ["tr1", "", "tr3"] = pyJoinNl merged
          ∧ merged.length = (["tr1", "", "tr3"] : List String).length
          ∧ ∀ (i : Nat), (hi : i < merged.length) →
              (ho : i < (pythonSplitlines "keep\n\nme").length) →
              (ht : i < (["tr1", "", "tr3"] : List String).length) →
              merged[i] = if pyStrip (["tr1", "", "tr3"] : List String)[i] ≠ ""
                    || pyStrip (pythonSplitlines "keep\n\nme")[i] = ""
                  then (["tr1", "", "tr3"] : List String)[i]
                  else (pythonSplitlines "keep\n\nme")[i])
    ∧ ((pythonSplitlines "ten\nlines").length ≠ (["only-one"] : List String).length
      ∧ apply_translation "ten\nlines" ["only-one"] = "ten\nlines") :=
  ⟨⟨by decide, (c10_amended "keep\n\nme" ["tr1", "", "tr3"]).2 (by decide)⟩,
   ⟨by decide, (c10_amended "ten\nlines" ["only-one"]).1 (by decide)⟩⟩
